import Mathlib

/-!
Verification of the mopy Monte Carlo Tree Search engine.

This file gives a shallow embedding of the MCTS core of the repository
(src/mopy/mctree.py, src/mopy/mopy.py, src/mopy/policies/backup.py,
src/mopy/policies/selection.py) and proves properties of the embedded
definitions.

Modelling conventions:
- Python numbers used for `won_games` / `total_games` are embedded as `Rat`
  (the counts are exact integers under the default backup policy and the spec
  allows fractional values; the win ratio is a quotient).
- `deepcopy` followed by an in-place `do_action` is embedded as a pure
  function `do_action : S → A → S` returning the new state value.
- A node's `parent` attribute in the source is either `None` or the node's
  structural parent (those are the only values the code ever assigns), so it
  is embedded as a `hasParent : Bool` flag on each node of an inductive tree.
- `random.choice` is embedded as an oracle index supplied by the caller; the
  chosen element is the list element at that index modulo the length.
- Exceptions are embedded with `Except`.
-/

set_option maxHeartbeats 1000000
set_option linter.unusedVariables false

namespace Mopy

/-- Shallow embedding of the Game capability interface (src/mopy/game.py)
together with the State contract's `current_player` attribute
(src/mopy/state.py), embedded as an accessor on states. `do_action` mutates
the state in place in the source; here it returns the updated state value. -/
structure Game (S A : Type) where
  get_legal_actions : S → List A
  do_action : S → A → S
  is_over : S → Bool
  get_result : S → Nat
  current_player : S → Nat

/-- A node of the search tree (class `MCTree` in src/mopy/mctree.py).
Fields follow `MCTree.__init__`: `state`, `action` (None for the root),
the `parent` attribute embedded as the flag `hasParent` (in the source the
parent is either `None` or the structural parent object, never anything
else), `won_games`, `total_games`, and the list `children`. -/
inductive MCTree (S A : Type) : Type where
  | mk (state : S) (action : Option A) (hasParent : Bool)
      (won_games : Rat) (total_games : Rat)
      (children : List (MCTree S A)) : MCTree S A

namespace MCTree

variable {S A : Type}

def state : MCTree S A → S
  | .mk s _ _ _ _ _ => s

def action : MCTree S A → Option A
  | .mk _ a _ _ _ _ => a

def hasParent : MCTree S A → Bool
  | .mk _ _ h _ _ _ => h

def won_games : MCTree S A → Rat
  | .mk _ _ _ w _ _ => w

def total_games : MCTree S A → Rat
  | .mk _ _ _ _ n _ => n

def children : MCTree S A → List (MCTree S A)
  | .mk _ _ _ _ _ cs => cs

@[simp] theorem state_mk (s : S) (a : Option A) (h : Bool) (w n : Rat)
    (cs : List (MCTree S A)) : state (mk s a h w n cs) = s := rfl

@[simp] theorem action_mk (s : S) (a : Option A) (h : Bool) (w n : Rat)
    (cs : List (MCTree S A)) : action (mk s a h w n cs) = a := rfl

@[simp] theorem hasParent_mk (s : S) (a : Option A) (h : Bool) (w n : Rat)
    (cs : List (MCTree S A)) : hasParent (mk s a h w n cs) = h := rfl

@[simp] theorem won_games_mk (s : S) (a : Option A) (h : Bool) (w n : Rat)
    (cs : List (MCTree S A)) : won_games (mk s a h w n cs) = w := rfl

@[simp] theorem total_games_mk (s : S) (a : Option A) (h : Bool) (w n : Rat)
    (cs : List (MCTree S A)) : total_games (mk s a h w n cs) = n := rfl

@[simp] theorem children_mk (s : S) (a : Option A) (h : Bool) (w n : Rat)
    (cs : List (MCTree S A)) : children (mk s a h w n cs) = cs := rfl

/-- `MCTree.__init__` (src/mopy/mctree.py lines 18-42): a fresh node has no
children and `won_games = total_games = 0`. -/
def init (s : S) (a : Option A) (par : Bool) : MCTree S A :=
  mk s a par 0 0 []

/-- Replace only the statistics of the top node (used by the last loop of
`combine_root_actions` and by the backup policies, which assign
`won_games` / `total_games`). -/
def setStats : MCTree S A → Rat → Rat → MCTree S A
  | .mk s a h _ _ cs, w, n => mk s a h w n cs

/-- Replace the `children` list of the top node. -/
def setChildren : MCTree S A → List (MCTree S A) → MCTree S A
  | .mk s a h w n _, cs => mk s a h w n cs

@[simp] theorem state_setStats (t : MCTree S A) (w n : Rat) :
    state (setStats t w n) = state t := by cases t; rfl

@[simp] theorem action_setStats (t : MCTree S A) (w n : Rat) :
    action (setStats t w n) = action t := by cases t; rfl

@[simp] theorem hasParent_setStats (t : MCTree S A) (w n : Rat) :
    hasParent (setStats t w n) = hasParent t := by cases t; rfl

@[simp] theorem won_games_setStats (t : MCTree S A) (w n : Rat) :
    won_games (setStats t w n) = w := by cases t; rfl

@[simp] theorem total_games_setStats (t : MCTree S A) (w n : Rat) :
    total_games (setStats t w n) = n := by cases t; rfl

@[simp] theorem children_setStats (t : MCTree S A) (w n : Rat) :
    children (setStats t w n) = children t := by cases t; rfl

@[simp] theorem setStats_mk (s : S) (a : Option A) (h : Bool) (w n w' n' : Rat)
    (cs : List (MCTree S A)) :
    setStats (mk s a h w n cs) w' n' = mk s a h w' n' cs := rfl

@[simp] theorem setChildren_mk (s : S) (a : Option A) (h : Bool) (w n : Rat)
    (cs cs' : List (MCTree S A)) :
    setChildren (mk s a h w n cs) cs' = mk s a h w n cs' := rfl

@[simp] theorem children_setChildren (t : MCTree S A) (cs : List (MCTree S A)) :
    children (setChildren t cs) = cs := by cases t; rfl

@[simp] theorem state_setChildren (t : MCTree S A) (cs : List (MCTree S A)) :
    state (setChildren t cs) = state t := by cases t; rfl

@[simp] theorem action_setChildren (t : MCTree S A) (cs : List (MCTree S A)) :
    action (setChildren t cs) = action t := by cases t; rfl

@[simp] theorem hasParent_setChildren (t : MCTree S A) (cs : List (MCTree S A)) :
    hasParent (setChildren t cs) = hasParent t := by cases t; rfl

@[simp] theorem won_games_setChildren (t : MCTree S A) (cs : List (MCTree S A)) :
    won_games (setChildren t cs) = won_games t := by cases t; rfl

@[simp] theorem total_games_setChildren (t : MCTree S A) (cs : List (MCTree S A)) :
    total_games (setChildren t cs) = total_games t := by cases t; rfl

/-- The `win_ratio` property (src/mopy/mctree.py lines 44-49): `0` when
`total_games == 0`, otherwise `won_games / total_games`. -/
def win_ratio (t : MCTree S A) : Rat :=
  if total_games t = 0 then 0 else won_games t / total_games t

end MCTree

/-- Errors surfaced by the engine. `valueError` is Python's builtin
`ValueError`, raised by `max()` on an empty sequence.
`noChildrenError` is modelled from the spec: the spec's error taxonomy names
a dedicated `NoChildrenError` for `get_best_action` on a childless node, but
the source defines no such class anywhere; the constructor exists here only
so that the spec's statement can be compared with the source behaviour. -/
inductive PyError where
  | valueError
  | noChildrenError
deriving DecidableEq

variable {S A : Type}

/-- Python's `max(xs, key=key)` on the non-empty list `x :: xs`: scan left to
right, replacing the current best only when the key is strictly larger, so
ties resolve to the first-encountered maximal element. -/
def pymaxBy (key : MCTree S A → Rat) (x : MCTree S A) (xs : List (MCTree S A)) :
    MCTree S A :=
  xs.foldl (fun best c => if key best < key c then c else best) x

/-- `MCTree.get_best_action` (src/mopy/mctree.py lines 110-125):
`max(self.children, key=attrgetter("win_ratio")).action`. On an empty
children list Python's `max` raises `ValueError`. -/
def get_best_action (t : MCTree S A) : Except PyError (Option A) :=
  match MCTree.children t with
  | [] => .error .valueError
  | c :: cs => .ok (MCTree.action (pymaxBy (fun x => MCTree.win_ratio x) c cs))

/-- One `defaultdict(int)` update: `m[k] += v`. -/
def bump [DecidableEq A] (m : Option A → Rat) (k : Option A) (v : Rat) :
    Option A → Rat :=
  fun x => if x = k then m x + v else m x

/-- `MCTree.combine_root_actions` (src/mopy/mctree.py lines 127-155).
The two `defaultdict(int)` count maps accumulate over `self.children`, then
over `other.children`; a child of `other` whose action is not among
`self`'s children's actions causes `MCTree(self.game, self.state, c.action)`
to be appended (parent defaults to `None`, the state argument is
`self.state` itself, no action is applied to it); the final loop overwrites
every child's counts with the map values. -/
def combine_root_actions [DecidableEq A] (t other : MCTree S A) : MCTree S A :=
  let wonMap := (MCTree.children other).foldl
    (fun m c => bump m (MCTree.action c) (MCTree.won_games c))
    ((MCTree.children t).foldl
      (fun m c => bump m (MCTree.action c) (MCTree.won_games c)) (fun _ => 0))
  let totalMap := (MCTree.children other).foldl
    (fun m c => bump m (MCTree.action c) (MCTree.total_games c))
    ((MCTree.children t).foldl
      (fun m c => bump m (MCTree.action c) (MCTree.total_games c)) (fun _ => 0))
  let original_actions := (MCTree.children t).map (fun c => MCTree.action c)
  let appended := ((MCTree.children other).filter
      (fun c => decide (MCTree.action c ∉ original_actions))).map
    (fun c => MCTree.init (MCTree.state t) (MCTree.action c) false)
  MCTree.setChildren t
    (((MCTree.children t) ++ appended).map
      (fun c => MCTree.setStats c (wonMap (MCTree.action c))
        (totalMap (MCTree.action c))))

/-- Sum of `won_games` over the direct children of `t` carrying action `a`
(the depth-1 per-action won count). -/
def wonOf [DecidableEq A] (t : MCTree S A) (a : Option A) : Rat :=
  (((MCTree.children t).filter (fun c => decide (MCTree.action c = a))).map
    (fun c => MCTree.won_games c)).sum

/-- Sum of `total_games` over the direct children of `t` carrying action `a`
(the depth-1 per-action visit count). -/
def totalOf [DecidableEq A] (t : MCTree S A) (a : Option A) : Rat :=
  (((MCTree.children t).filter (fun c => decide (MCTree.action c = a))).map
    (fun c => MCTree.total_games c)).sum

/-- A tiny concrete game used for witnesses and counterexamples: states are
pile sizes, an action removes 1 to 3 items from the pile. -/
def testGame : Game Nat Nat where
  get_legal_actions := fun s => (List.range (min s 3)).map (fun k => k + 1)
  do_action := fun s a => s - a
  is_over := fun s => decide (s = 0)
  get_result := fun s => s % 2
  current_player := fun s => s % 2

/-! ### Helper lemmas -/

theorem pymaxBy_mem (key : MCTree S A → Rat) (x : MCTree S A)
    (xs : List (MCTree S A)) : pymaxBy key x xs ∈ x :: xs := by
  induction xs generalizing x with
  | nil => simp [pymaxBy]
  | cons y ys ih =>
    have e : pymaxBy key x (y :: ys)
        = pymaxBy key (if key x < key y then y else x) ys := rfl
    rw [e]
    rcases List.mem_cons.mp (ih (if key x < key y then y else x)) with h | h
    · rw [h]
      by_cases hxy : key x < key y
      · simp [hxy]
      · simp [hxy]
    · simp [h]

theorem bump_foldl [DecidableEq A] (l : List (MCTree S A))
    (g : MCTree S A → Rat) (m : Option A → Rat) (a : Option A) :
    (l.foldl (fun m' c => bump m' (MCTree.action c) (g c)) m) a
      = m a + ((l.filter (fun c => decide (MCTree.action c = a))).map g).sum := by
  induction l generalizing m with
  | nil => simp
  | cons c rest ih =>
    simp only [List.foldl_cons, List.filter_cons]
    rw [ih]
    by_cases h : MCTree.action c = a
    · simp [h, bump, add_assoc]
    · have h' : ¬ a = MCTree.action c := fun hh => h hh.symm
      simp [h, h', bump]

theorem filter_action_nil [DecidableEq A] (l : List (MCTree S A)) (a : Option A)
    (h : a ∉ l.map (fun c => MCTree.action c)) :
    l.filter (fun c => decide (MCTree.action c = a)) = [] := by
  refine List.filter_eq_nil_iff.mpr (fun c hc => ?_)
  simp only [decide_eq_true_eq]
  intro hca
  exact h (List.mem_map.mpr ⟨c, hc, hca⟩)

theorem filter_map_action [DecidableEq A] (l : List (MCTree S A))
    (F : MCTree S A → MCTree S A)
    (hF : ∀ c, MCTree.action (F c) = MCTree.action c) (a : Option A) :
    (l.map F).filter (fun c => decide (MCTree.action c = a))
      = (l.filter (fun c => decide (MCTree.action c = a))).map F := by
  induction l with
  | nil => rfl
  | cons c rest ih =>
    simp only [List.map_cons, List.filter_cons, hF]
    by_cases h : MCTree.action c = a
    · simp [h, ih]
    · simp [h, ih]

theorem filter_not_in_filter [DecidableEq A] (l : List (MCTree S A))
    (orig : List (Option A)) (a : Option A) (ha : a ∉ orig) :
    (l.filter (fun c => decide (MCTree.action c ∉ orig))).filter
        (fun c => decide (MCTree.action c = a))
      = l.filter (fun c => decide (MCTree.action c = a)) := by
  induction l with
  | nil => rfl
  | cons c rest ih =>
    by_cases h2 : MCTree.action c ∈ orig
    · have hca : ¬ (MCTree.action c = a) := fun e => ha (e ▸ h2)
      rw [List.filter_cons, if_neg (by simp [h2]), ih, List.filter_cons,
        if_neg (by simp [hca])]
    · rw [List.filter_cons, if_pos (by simp [h2]), List.filter_cons,
        List.filter_cons]
      simp only [ih]

theorem filter_action_singleton [DecidableEq A] (l : List (MCTree S A))
    (a : Option A) (hnd : (l.map (fun c => MCTree.action c)).Nodup)
    (hm : a ∈ l.map (fun c => MCTree.action c)) :
    ∃ c0 ∈ l, MCTree.action c0 = a ∧
      l.filter (fun c => decide (MCTree.action c = a)) = [c0] := by
  induction l with
  | nil => simp at hm
  | cons c rest ih =>
    simp only [List.map_cons, List.nodup_cons] at hnd
    by_cases h : MCTree.action c = a
    · refine ⟨c, by simp, h, ?_⟩
      have hrest : rest.filter (fun x => decide (MCTree.action x = a)) = [] :=
        filter_action_nil rest a (h ▸ hnd.1)
      simp [List.filter_cons, h, hrest]
    · have hm' : a ∈ rest.map (fun c => MCTree.action c) := by
        rcases List.mem_map.mp hm with ⟨x, hx, hxa⟩
        rcases List.mem_cons.mp hx with rfl | hx'
        · exact absurd hxa h
        · exact List.mem_map.mpr ⟨x, hx', hxa⟩
      rcases ih hnd.2 hm' with ⟨c0, hc0, hact, hfil⟩
      exact ⟨c0, by simp [hc0], hact, by simp [List.filter_cons, h, hfil]⟩

/-- Summing `won_games` over the action-`a` children of a stats-rewriting
map: with pairwise-distinct actions the sum is the won-map value at `a` when
`a` occurs, `0` otherwise. -/
theorem sum_won_filter_setStats [DecidableEq A] (W T : Option A → Rat)
    (l : List (MCTree S A)) (a : Option A)
    (hnd : (l.map (fun c => MCTree.action c)).Nodup) :
    ((((l.map (fun c => MCTree.setStats c (W (MCTree.action c))
          (T (MCTree.action c)))).filter
        (fun c => decide (MCTree.action c = a))).map
      (fun c => MCTree.won_games c)).sum)
      = if a ∈ l.map (fun c => MCTree.action c) then W a else 0 := by
  rw [filter_map_action _ _ (fun c => by simp)]
  by_cases hm : a ∈ l.map (fun c => MCTree.action c)
  · obtain ⟨c0, _, hact, hfil⟩ := filter_action_singleton l a hnd hm
    rw [hfil, if_pos hm]
    simp [hact]
  · rw [filter_action_nil _ _ hm, if_neg hm]
    simp

/-- Summing `total_games` over the action-`a` children of a stats-rewriting
map: with pairwise-distinct actions the sum is the total-map value at `a`
when `a` occurs, `0` otherwise. -/
theorem sum_total_filter_setStats [DecidableEq A] (W T : Option A → Rat)
    (l : List (MCTree S A)) (a : Option A)
    (hnd : (l.map (fun c => MCTree.action c)).Nodup) :
    ((((l.map (fun c => MCTree.setStats c (W (MCTree.action c))
          (T (MCTree.action c)))).filter
        (fun c => decide (MCTree.action c = a))).map
      (fun c => MCTree.total_games c)).sum)
      = if a ∈ l.map (fun c => MCTree.action c) then T a else 0 := by
  rw [filter_map_action _ _ (fun c => by simp)]
  by_cases hm : a ∈ l.map (fun c => MCTree.action c)
  · obtain ⟨c0, _, hact, hfil⟩ := filter_action_singleton l a hnd hm
    rw [hfil, if_pos hm]
    simp [hact]
  · rw [filter_action_nil _ _ hm, if_neg hm]
    simp

/-- Unfolding of `combine_root_actions`: the combined children are the
original children followed by the freshly created ones, each with its
statistics overwritten by the two count maps. -/
theorem combine_children_eq [DecidableEq A] (t other : MCTree S A) :
    MCTree.children (combine_root_actions t other)
      = ((MCTree.children t ++ ((MCTree.children other).filter
            (fun c => decide (MCTree.action c ∉
              (MCTree.children t).map (fun x => MCTree.action x)))).map
          (fun c => MCTree.init (MCTree.state t) (MCTree.action c) false)).map
        (fun c => MCTree.setStats c
          (((MCTree.children other).foldl
            (fun m x => bump m (MCTree.action x) (MCTree.won_games x))
            ((MCTree.children t).foldl
              (fun m x => bump m (MCTree.action x) (MCTree.won_games x))
              (fun _ => 0))) (MCTree.action c))
          (((MCTree.children other).foldl
            (fun m x => bump m (MCTree.action x) (MCTree.total_games x))
            ((MCTree.children t).foldl
              (fun m x => bump m (MCTree.action x) (MCTree.total_games x))
              (fun _ => 0))) (MCTree.action c)))) := by
  simp only [combine_root_actions, MCTree.children_setChildren]

/-! ### C1: the child `combine_root_actions` adds for an action only in
`other` -/

/-- C1 (amended): for every action `a` present among `other`'s children but
not among `self`'s (with `other`'s children carrying pairwise-distinct
actions), `combine_root_actions` creates exactly one new child on `self`
whose action is `a` and whose `won_games` / `total_games` equal the matching
`other` child's counts — but whose state is `self`'s state as-is: the source
constructs `MCTree(self.game, self.state, c.action)`, so the action is never
applied (and the state is shared, not cloned), and the new child's parent is
`None` (`hasParent = false`) with no children of its own. -/
theorem combine_new_child [DecidableEq A] (t other : MCTree S A) (a : A)
    (hother : ((MCTree.children other).map (fun c => MCTree.action c)).Nodup)
    (hmem : some a ∈ (MCTree.children other).map (fun c => MCTree.action c))
    (hnot : some a ∉ (MCTree.children t).map (fun c => MCTree.action c)) :
    ∃ c0 ∈ MCTree.children other, MCTree.action c0 = some a ∧
      (MCTree.children (combine_root_actions t other)).filter
          (fun c => decide (MCTree.action c = some a))
        = [MCTree.mk (MCTree.state t) (some a) false
            (MCTree.won_games c0) (MCTree.total_games c0) []] := by
  obtain ⟨c0, hc0mem, hc0act, hfil⟩ :=
    filter_action_singleton _ (some a) hother hmem
  refine ⟨c0, hc0mem, hc0act, ?_⟩
  have hWm : ∀ g : MCTree S A → Rat,
      ((MCTree.children other).foldl
        (fun m c => bump m (MCTree.action c) (g c))
        ((MCTree.children t).foldl
          (fun m c => bump m (MCTree.action c) (g c)) (fun _ => 0))) (some a)
      = g c0 := by
    intro g
    rw [bump_foldl, bump_foldl, filter_action_nil _ _ hnot, hfil]
    simp
  rw [combine_children_eq]
  rw [filter_map_action _ _ (fun c => by simp)]
  rw [List.filter_append, filter_action_nil _ _ hnot, List.nil_append]
  rw [filter_map_action _ _ (fun c => by simp [MCTree.init])]
  rw [filter_not_in_filter _ _ _ hnot, hfil]
  simp only [List.map_cons, List.map_nil, MCTree.init, MCTree.action_mk,
    hc0act]
  rw [hWm (fun c => MCTree.won_games c), hWm (fun c => MCTree.total_games c)]
  simp [MCTree.setStats]

/-- Witness for C1 at a concrete pair of trees. -/
theorem combine_new_child_witness :
    ∃ c0 ∈ MCTree.children (MCTree.setChildren
        (MCTree.init (5:Nat) (none : Option Nat) false)
        [MCTree.mk 4 (some 1) false 1 1 []]),
      MCTree.action c0 = some 1 ∧
      (MCTree.children (combine_root_actions
          (MCTree.init (5:Nat) (none : Option Nat) false)
          (MCTree.setChildren (MCTree.init (5:Nat) (none : Option Nat) false)
            [MCTree.mk 4 (some 1) false 1 1 []]))).filter
          (fun c => decide (MCTree.action c = some 1))
        = [MCTree.mk 5 (some 1) false
            (MCTree.won_games (MCTree.mk 4 (some 1) false 1 1 []))
            (MCTree.total_games (MCTree.mk 4 (some 1) false 1 1 []))
            []] := by
  have h := combine_new_child
    (MCTree.init (5:Nat) (none : Option Nat) false)
    (MCTree.setChildren (MCTree.init (5:Nat) (none : Option Nat) false)
      [MCTree.mk 4 (some 1) false 1 1 []]) 1
    (by simp [MCTree.init]) (by simp [MCTree.init]) (by simp [MCTree.init])
  simpa [MCTree.init] using h

/-- C1 counterexample: the claim says the new child's state is freshly
produced by applying the action to a clone of `self`'s state. At pile state
`5` with action `1` replaying would give state `4`, but the child produced
by `combine_root_actions` carries state `5` — `self.state` itself, with the
action never applied. -/
theorem combine_state_not_replayed :
    (MCTree.children (combine_root_actions
        (MCTree.init (5:Nat) (none : Option Nat) false)
        (MCTree.setChildren (MCTree.init (5:Nat) (none : Option Nat) false)
          [MCTree.mk 4 (some 1) false 1 1 []]))).map
        (fun c => MCTree.state c) = [5] ∧
    Game.do_action testGame 5 1 = 4 ∧ (5:Nat) ≠ 4 := by
  refine ⟨?_, rfl, by decide⟩
  simp [combine_root_actions, MCTree.init]

/-! ### C3: combine is a per-action sum, in any pairwise order -/

/-- Characterization of the actions carried by the children of a combined
tree: `self`'s children's actions followed by the actions of `other`'s
children not already present. -/
theorem combine_children_actions [DecidableEq A] (t other : MCTree S A) :
    (MCTree.children (combine_root_actions t other)).map
        (fun c => MCTree.action c)
      = (MCTree.children t).map (fun c => MCTree.action c)
        ++ ((MCTree.children other).filter
            (fun c => decide (MCTree.action c ∉
              (MCTree.children t).map (fun x => MCTree.action x)))).map
          (fun c => MCTree.action c) := by
  rw [combine_children_eq, List.map_map, List.map_append, List.map_map]
  refine congrArg₂ (· ++ ·) ?_ ?_
  · exact List.map_congr_left (fun c _ => by simp [Function.comp])
  · exact List.map_congr_left (fun c _ => by simp [Function.comp, MCTree.init])

/-- Combining two trees whose children carry pairwise-distinct actions
yields a tree whose children again carry pairwise-distinct actions. -/
theorem combine_nodup [DecidableEq A] (t other : MCTree S A)
    (ht : ((MCTree.children t).map (fun c => MCTree.action c)).Nodup)
    (ho : ((MCTree.children other).map (fun c => MCTree.action c)).Nodup) :
    ((MCTree.children (combine_root_actions t other)).map
      (fun c => MCTree.action c)).Nodup := by
  rw [combine_children_actions]
  refine List.Nodup.append ht (((List.filter_sublist _).map _).nodup ho) ?_
  intro a hat haf
  rcases List.mem_map.mp haf with ⟨c, hcf, rfl⟩
  have hp := List.of_mem_filter hcf
  simp only [decide_eq_true_eq] at hp
  exact hp hat

/-- The per-action won sum after a combine is the sum of the two trees'
per-action won sums. -/
theorem wonOf_combine [DecidableEq A] (t other : MCTree S A)
    (ht : ((MCTree.children t).map (fun c => MCTree.action c)).Nodup)
    (ho : ((MCTree.children other).map (fun c => MCTree.action c)).Nodup)
    (a : Option A) :
    wonOf (combine_root_actions t other) a = wonOf t a + wonOf other a := by
  have happ : (((MCTree.children other).filter
        (fun c => decide (MCTree.action c ∉
          (MCTree.children t).map (fun x => MCTree.action x)))).map
      (fun c => MCTree.init (MCTree.state t) (MCTree.action c) false)).map
        (fun c => MCTree.action c)
      = ((MCTree.children other).filter
          (fun c => decide (MCTree.action c ∉
            (MCTree.children t).map (fun x => MCTree.action x)))).map
        (fun c => MCTree.action c) := by
    rw [List.map_map]
    exact List.map_congr_left (fun c _ => by simp [MCTree.init])
  have hnd : ((MCTree.children t
      ++ ((MCTree.children other).filter
          (fun c => decide (MCTree.action c ∉
            (MCTree.children t).map (fun x => MCTree.action x)))).map
        (fun c => MCTree.init (MCTree.state t) (MCTree.action c) false)).map
      (fun c => MCTree.action c)).Nodup := by
    rw [List.map_append, happ]
    refine List.Nodup.append ht (((List.filter_sublist _).map _).nodup ho) ?_
    intro x hxt hxf
    rcases List.mem_map.mp hxf with ⟨c, hcf, rfl⟩
    have hp := List.of_mem_filter hcf
    simp only [decide_eq_true_eq] at hp
    exact hp hxt
  show (((MCTree.children (combine_root_actions t other)).filter
      (fun c => decide (MCTree.action c = a))).map
      (fun c => MCTree.won_games c)).sum = _
  rw [combine_children_eq]
  rw [sum_won_filter_setStats _ _ _ a hnd]
  have hwonmap : ((MCTree.children other).foldl
      (fun m c => bump m (MCTree.action c) (MCTree.won_games c))
      ((MCTree.children t).foldl
        (fun m c => bump m (MCTree.action c) (MCTree.won_games c))
        (fun _ => 0))) a = wonOf t a + wonOf other a := by
    rw [bump_foldl, bump_foldl]
    show 0 + _ + _ = _
    rw [zero_add]
    rfl
  by_cases hm : a ∈ (MCTree.children t
      ++ ((MCTree.children other).filter
          (fun c => decide (MCTree.action c ∉
            (MCTree.children t).map (fun x => MCTree.action x)))).map
        (fun c => MCTree.init (MCTree.state t) (MCTree.action c) false)).map
      (fun c => MCTree.action c)
  · rw [if_pos hm, hwonmap]
  · rw [if_neg hm]
    rw [List.map_append, happ] at hm
    simp only [List.mem_append] at hm
    push_neg at hm
    have hnt := hm.1
    have hno : a ∉ (MCTree.children other).map (fun c => MCTree.action c) := by
      intro hoo
      rcases List.mem_map.mp hoo with ⟨c, hc, rfl⟩
      exact hm.2 (List.mem_map.mpr
        ⟨c, List.mem_filter.mpr ⟨hc, by simpa using hnt⟩, rfl⟩)
    show (0:Rat) = wonOf t a + wonOf other a
    unfold wonOf
    rw [filter_action_nil _ _ hnt, filter_action_nil _ _ hno]
    simp

/-- The per-action visit sum after a combine is the sum of the two trees'
per-action visit sums. -/
theorem totalOf_combine [DecidableEq A] (t other : MCTree S A)
    (ht : ((MCTree.children t).map (fun c => MCTree.action c)).Nodup)
    (ho : ((MCTree.children other).map (fun c => MCTree.action c)).Nodup)
    (a : Option A) :
    totalOf (combine_root_actions t other) a = totalOf t a + totalOf other a := by
  have happ : (((MCTree.children other).filter
        (fun c => decide (MCTree.action c ∉
          (MCTree.children t).map (fun x => MCTree.action x)))).map
      (fun c => MCTree.init (MCTree.state t) (MCTree.action c) false)).map
        (fun c => MCTree.action c)
      = ((MCTree.children other).filter
          (fun c => decide (MCTree.action c ∉
            (MCTree.children t).map (fun x => MCTree.action x)))).map
        (fun c => MCTree.action c) := by
    rw [List.map_map]
    exact List.map_congr_left (fun c _ => by simp [MCTree.init])
  have hnd : ((MCTree.children t
      ++ ((MCTree.children other).filter
          (fun c => decide (MCTree.action c ∉
            (MCTree.children t).map (fun x => MCTree.action x)))).map
        (fun c => MCTree.init (MCTree.state t) (MCTree.action c) false)).map
      (fun c => MCTree.action c)).Nodup := by
    rw [List.map_append, happ]
    refine List.Nodup.append ht (((List.filter_sublist _).map _).nodup ho) ?_
    intro x hxt hxf
    rcases List.mem_map.mp hxf with ⟨c, hcf, rfl⟩
    have hp := List.of_mem_filter hcf
    simp only [decide_eq_true_eq] at hp
    exact hp hxt
  show (((MCTree.children (combine_root_actions t other)).filter
      (fun c => decide (MCTree.action c = a))).map
      (fun c => MCTree.total_games c)).sum = _
  rw [combine_children_eq]
  rw [sum_total_filter_setStats _ _ _ a hnd]
  have htotmap : ((MCTree.children other).foldl
      (fun m c => bump m (MCTree.action c) (MCTree.total_games c))
      ((MCTree.children t).foldl
        (fun m c => bump m (MCTree.action c) (MCTree.total_games c))
        (fun _ => 0))) a = totalOf t a + totalOf other a := by
    rw [bump_foldl, bump_foldl]
    show 0 + _ + _ = _
    rw [zero_add]
    rfl
  by_cases hm : a ∈ (MCTree.children t
      ++ ((MCTree.children other).filter
          (fun c => decide (MCTree.action c ∉
            (MCTree.children t).map (fun x => MCTree.action x)))).map
        (fun c => MCTree.init (MCTree.state t) (MCTree.action c) false)).map
      (fun c => MCTree.action c)
  · rw [if_pos hm, htotmap]
  · rw [if_neg hm]
    rw [List.map_append, happ] at hm
    simp only [List.mem_append] at hm
    push_neg at hm
    have hnt := hm.1
    have hno : a ∉ (MCTree.children other).map (fun c => MCTree.action c) := by
      intro hoo
      rcases List.mem_map.mp hoo with ⟨c, hc, rfl⟩
      exact hm.2 (List.mem_map.mpr
        ⟨c, List.mem_filter.mpr ⟨hc, by simpa using hnt⟩, rfl⟩)
    show (0:Rat) = totalOf t a + totalOf other a
    unfold totalOf
    rw [filter_action_nil _ _ hnt, filter_action_nil _ _ hno]
    simp

/-- C3: for trees `tA`, `tB`, `tC` whose children carry pairwise-distinct
actions, combining them pairwise in any of the six accumulator orders yields,
for every action, per-action `(won, total)` equal to the sum over the direct
children of the three trees; and merging a tree whose matching child has
`won=1,total=1` into a tree whose child has `won=0,total=2` yields
`won=1,total=3` with win ratio `1/3`. -/
theorem combine_per_action_sums [DecidableEq A] (tA tB tC : MCTree S A)
    (hA : ((MCTree.children tA).map (fun c => MCTree.action c)).Nodup)
    (hB : ((MCTree.children tB).map (fun c => MCTree.action c)).Nodup)
    (hC : ((MCTree.children tC).map (fun c => MCTree.action c)).Nodup) :
    (∀ a : Option A,
      (wonOf (combine_root_actions (combine_root_actions tA tB) tC) a
          = wonOf tA a + wonOf tB a + wonOf tC a
        ∧ totalOf (combine_root_actions (combine_root_actions tA tB) tC) a
          = totalOf tA a + totalOf tB a + totalOf tC a)
      ∧ (wonOf (combine_root_actions (combine_root_actions tB tA) tC) a
          = wonOf tA a + wonOf tB a + wonOf tC a
        ∧ totalOf (combine_root_actions (combine_root_actions tB tA) tC) a
          = totalOf tA a + totalOf tB a + totalOf tC a)
      ∧ (wonOf (combine_root_actions (combine_root_actions tA tC) tB) a
          = wonOf tA a + wonOf tB a + wonOf tC a
        ∧ totalOf (combine_root_actions (combine_root_actions tA tC) tB) a
          = totalOf tA a + totalOf tB a + totalOf tC a)
      ∧ (wonOf (combine_root_actions (combine_root_actions tC tA) tB) a
          = wonOf tA a + wonOf tB a + wonOf tC a
        ∧ totalOf (combine_root_actions (combine_root_actions tC tA) tB) a
          = totalOf tA a + totalOf tB a + totalOf tC a)
      ∧ (wonOf (combine_root_actions (combine_root_actions tB tC) tA) a
          = wonOf tA a + wonOf tB a + wonOf tC a
        ∧ totalOf (combine_root_actions (combine_root_actions tB tC) tA) a
          = totalOf tA a + totalOf tB a + totalOf tC a)
      ∧ (wonOf (combine_root_actions (combine_root_actions tC tB) tA) a
          = wonOf tA a + wonOf tB a + wonOf tC a
        ∧ totalOf (combine_root_actions (combine_root_actions tC tB) tA) a
          = totalOf tA a + totalOf tB a + totalOf tC a))
    ∧ ((MCTree.children (combine_root_actions
          (MCTree.mk (0:Nat) (none : Option Nat) false 0 0
            [MCTree.mk 0 (some 0) false 0 2 []])
          (MCTree.mk (0:Nat) (none : Option Nat) false 0 0
            [MCTree.mk 0 (some 0) false 1 1 []]))).map
          (fun c => (MCTree.action c, MCTree.won_games c, MCTree.total_games c))
        = [(some 0, (1:Rat), (3:Rat))]
      ∧ (MCTree.children (combine_root_actions
          (MCTree.mk (0:Nat) (none : Option Nat) false 0 0
            [MCTree.mk 0 (some 0) false 0 2 []])
          (MCTree.mk (0:Nat) (none : Option Nat) false 0 0
            [MCTree.mk 0 (some 0) false 1 1 []]))).map
          (fun c => MCTree.win_ratio c)
        = [1/3]) := by
  constructor
  · intro a
    refine ⟨⟨?_, ?_⟩, ⟨?_, ?_⟩, ⟨?_, ?_⟩, ⟨?_, ?_⟩, ⟨?_, ?_⟩, ⟨?_, ?_⟩⟩
    · rw [wonOf_combine _ _ (combine_nodup _ _ hA hB) hC,
        wonOf_combine _ _ hA hB]
    · rw [totalOf_combine _ _ (combine_nodup _ _ hA hB) hC,
        totalOf_combine _ _ hA hB]
    · rw [wonOf_combine _ _ (combine_nodup _ _ hB hA) hC,
        wonOf_combine _ _ hB hA]; ring
    · rw [totalOf_combine _ _ (combine_nodup _ _ hB hA) hC,
        totalOf_combine _ _ hB hA]; ring
    · rw [wonOf_combine _ _ (combine_nodup _ _ hA hC) hB,
        wonOf_combine _ _ hA hC]; ring
    · rw [totalOf_combine _ _ (combine_nodup _ _ hA hC) hB,
        totalOf_combine _ _ hA hC]; ring
    · rw [wonOf_combine _ _ (combine_nodup _ _ hC hA) hB,
        wonOf_combine _ _ hC hA]; ring
    · rw [totalOf_combine _ _ (combine_nodup _ _ hC hA) hB,
        totalOf_combine _ _ hC hA]; ring
    · rw [wonOf_combine _ _ (combine_nodup _ _ hB hC) hA,
        wonOf_combine _ _ hB hC]; ring
    · rw [totalOf_combine _ _ (combine_nodup _ _ hB hC) hA,
        totalOf_combine _ _ hB hC]; ring
    · rw [wonOf_combine _ _ (combine_nodup _ _ hC hB) hA,
        wonOf_combine _ _ hC hB]; ring
    · rw [totalOf_combine _ _ (combine_nodup _ _ hC hB) hA,
        totalOf_combine _ _ hC hB]; ring
  · constructor
    · simp [combine_root_actions, bump, MCTree.init, MCTree.setStats]
      norm_num
    · simp [combine_root_actions, bump, MCTree.init, MCTree.setStats,
        MCTree.win_ratio]
      norm_num

/-- Witness for C3 at concrete trees with distinct child actions. -/
theorem combine_per_action_sums_witness :
    wonOf (combine_root_actions (combine_root_actions
        (MCTree.mk (0:Nat) (none : Option Nat) false 0 0
          [MCTree.mk 0 (some 1) false 1 2 []])
        (MCTree.mk (0:Nat) (none : Option Nat) false 0 0
          [MCTree.mk 0 (some 2) false 0 1 []]))
        (MCTree.mk (0:Nat) (none : Option Nat) false 0 0
          [MCTree.mk 0 (some 1) false 2 3 []])) (some 1)
      = wonOf (MCTree.mk (0:Nat) (none : Option Nat) false 0 0
          [MCTree.mk 0 (some 1) false 1 2 []]) (some 1)
        + wonOf (MCTree.mk (0:Nat) (none : Option Nat) false 0 0
          [MCTree.mk 0 (some 2) false 0 1 []]) (some 1)
        + wonOf (MCTree.mk (0:Nat) (none : Option Nat) false 0 0
          [MCTree.mk 0 (some 1) false 2 3 []]) (some 1) :=
  (((combine_per_action_sums _ _ _ (by simp) (by simp) (by simp)).1
    (some 1)).1).1

/-! ### C9: the win ratio is total, `0` when `total_games = 0` -/

/-- C9: for every node, the win ratio equals `won_games / total_games` when
`total_games > 0` and is exactly `0` when `total_games = 0`; `win_ratio` is a
total function on nodes (never an error, never NaN). -/
theorem win_ratio_cases (t : MCTree S A) :
    (MCTree.total_games t = 0 → MCTree.win_ratio t = 0) ∧
    (0 < MCTree.total_games t →
      MCTree.win_ratio t = MCTree.won_games t / MCTree.total_games t) := by
  constructor
  · intro h; simp [MCTree.win_ratio, h]
  · intro h; simp [MCTree.win_ratio, ne_of_gt h]

/-- Witness for C9 at concrete nodes. -/
theorem win_ratio_cases_witness :
    MCTree.win_ratio (MCTree.mk (0:Nat) (none : Option Nat) false 0 0 []) = 0
    ∧ MCTree.win_ratio (MCTree.mk (0:Nat) (none : Option Nat) false 1 2 [])
      = 1/2 := by
  constructor
  · exact (win_ratio_cases _).1 rfl
  · have h := (win_ratio_cases
      (MCTree.mk (0:Nat) (none : Option Nat) false 1 2 [])).2 (by norm_num)
    simpa using h

/-! ### C2: `get_best_action` on empty and non-empty children -/

/-- C2 counterexample: on a node with zero children `get_best_action` fails
with Python's builtin `ValueError` (from `max` on an empty sequence), not
with a dedicated `NoChildrenError` — the source defines no such class. -/
theorem get_best_action_counterexample :
    get_best_action (MCTree.init (0:Nat) (none : Option Nat) false)
      = Except.error PyError.valueError ∧
    get_best_action (MCTree.init (0:Nat) (none : Option Nat) false)
      ≠ Except.error PyError.noChildrenError := by
  refine ⟨rfl, fun h => ?_⟩
  rw [show get_best_action (MCTree.init (0:Nat) (none : Option Nat) false)
    = Except.error PyError.valueError from rfl] at h
  simp at h

/-- C2 (amended): on a node with zero children `get_best_action` fails with
the builtin `ValueError` raised by `max` on an empty sequence (the source
defines no `NoChildrenError`); on a node with at least one child it returns
the action of one of that node's existing children. -/
theorem get_best_action_spec (t : MCTree S A) :
    (MCTree.children t = [] → get_best_action t = .error .valueError) ∧
    (MCTree.children t ≠ [] →
      ∃ c ∈ MCTree.children t, get_best_action t = .ok (MCTree.action c)) := by
  constructor
  · intro h; simp [get_best_action, h]
  · intro h
    match hc : MCTree.children t with
    | [] => exact absurd hc h
    | c :: cs =>
      refine ⟨pymaxBy (fun x => MCTree.win_ratio x) c cs, ?_, ?_⟩
      · exact pymaxBy_mem _ _ _
      · simp [get_best_action, hc]

/-- Witness for C2 at concrete nodes: the empty case yields `ValueError`, a
node with one child yields that child's action. -/
theorem get_best_action_spec_witness :
    get_best_action (MCTree.mk (0:Nat) (none : Option Nat) false 0 0 [])
      = .error .valueError ∧
    ∃ c ∈ MCTree.children (MCTree.mk (0:Nat) (none : Option Nat) false 0 0
        [MCTree.mk 0 (some 7) true 1 1 []]),
      get_best_action (MCTree.mk (0:Nat) (none : Option Nat) false 0 0
        [MCTree.mk 0 (some 7) true 1 1 []]) = .ok (MCTree.action c) :=
  ⟨(get_best_action_spec _).1 rfl,
   (get_best_action_spec _).2 (by simp)⟩

/-! ### Paths, parent links, and backpropagation -/

/-- Follow a path of child indices down from the root of `t`. -/
def follow : MCTree S A → List Nat → Option (MCTree S A)
  | t, [] => some t
  | t, i :: p =>
    match (MCTree.children t)[i]? with
    | none => none
    | some c => follow c p

/-- Apply `f` to the node at path `p`, leaving every other node unchanged
(the tree is unchanged when the path is invalid). -/
def updateAt (f : MCTree S A → MCTree S A) : MCTree S A → List Nat → MCTree S A
  | t, [] => f t
  | t, i :: p =>
    match (MCTree.children t)[i]? with
    | none => t
    | some c =>
      MCTree.setChildren t ((MCTree.children t).set i (updateAt f c p))

/-- The own data of one node: everything except the recursive content of its
children. -/
structure NodeData (S A : Type) where
  state : S
  action : Option A
  hasParent : Bool
  won_games : Rat
  total_games : Rat
  numChildren : Nat

/-- The own data of the node at path `q` of `t`. -/
def nodeDataAt (t : MCTree S A) (q : List Nat) : Option (NodeData S A) :=
  (follow t q).map (fun u => ⟨MCTree.state u, MCTree.action u,
    MCTree.hasParent u, MCTree.won_games u, MCTree.total_games u,
    (MCTree.children u).length⟩)

/-- Every node reachable through a `children` link carries
`hasParent = true` (its `parent` attribute is its structural parent — the
well-formed situation produced by `_expand`, where the root was built with
`parent=None` and every child with `parent=self`). -/
def childrenLinked : MCTree S A → Bool
  | .mk _ _ _ _ _ cs =>
    cs.attach.all (fun c => MCTree.hasParent c.1 && childrenLinked c.1)
termination_by t => sizeOf t
decreasing_by
  have h := List.sizeOf_lt_of_mem c.2
  simp only [MCTree.mk.sizeOf_spec]
  omega

/-- The default backup policy `win_loss_ratio`
(src/mopy/policies/backup.py lines 11-22): `total_games += 1`, and
`won_games += 1` iff the node's state's `current_player` equals `winner`. -/
def win_loss_ratio (g : Game S A) (winner : Nat) (t : MCTree S A) :
    MCTree S A :=
  MCTree.setStats t
    (if Game.current_player g (MCTree.state t) = winner
      then MCTree.won_games t + 1 else MCTree.won_games t)
    (MCTree.total_games t + 1)

/-- `MCTree.backup_result` (src/mopy/mctree.py lines 94-108): starting at
the node at path `p`, apply the backup policy to the current node, then move
to its parent, while a parent reference exists (`while root:` on the
`parent` attributes). A node's parent attribute is either `None`
(`hasParent = false`) or its structural parent, so moving to the parent is
moving from `p` to `p.dropLast`; at the tree root (path `[]`) there is no
structural parent, so the loop stops after updating it. -/
def backup_result (pol : MCTree S A → MCTree S A) (t : MCTree S A)
    (p : List Nat) : MCTree S A :=
  match follow t p with
  | none => t
  | some u =>
    if p ≠ [] ∧ MCTree.hasParent u = true then
      backup_result pol (updateAt pol t p) p.dropLast
    else updateAt pol t p
termination_by p.length
decreasing_by
  rename_i hp
  have hne : p ≠ [] := by
    rcases hp with ⟨h1, _⟩
    exact h1
  calc p.dropLast.length = p.length - 1 := by rw [List.length_dropLast]
  _ < p.length := by
      cases p with
      | nil => exact absurd rfl hne
      | cons x xs => simp

@[simp] theorem follow_nil (t : MCTree S A) : follow t [] = some t := rfl

theorem follow_cons (t : MCTree S A) (i : Nat) (p : List Nat) :
    follow t (i :: p) = match (MCTree.children t)[i]? with
      | none => none
      | some c => follow c p := rfl

theorem follow_cons_some {t c : MCTree S A} {i : Nat}
    (h : (MCTree.children t)[i]? = some c) (p : List Nat) :
    follow t (i :: p) = follow c p := by
  rw [follow_cons, h]

theorem follow_cons_none {t : MCTree S A} {i : Nat}
    (h : (MCTree.children t)[i]? = none) (p : List Nat) :
    follow t (i :: p) = none := by
  rw [follow_cons, h]

theorem updateAt_nil (f : MCTree S A → MCTree S A) (t : MCTree S A) :
    updateAt f t [] = f t := rfl

theorem updateAt_cons_some (f : MCTree S A → MCTree S A) {t c : MCTree S A}
    {i : Nat} (h : (MCTree.children t)[i]? = some c) (p : List Nat) :
    updateAt f t (i :: p)
      = MCTree.setChildren t ((MCTree.children t).set i (updateAt f c p)) := by
  show (match (MCTree.children t)[i]? with
    | none => t
    | some c => MCTree.setChildren t
        ((MCTree.children t).set i (updateAt f c p))) = _
  rw [h]

theorem updateAt_cons_none (f : MCTree S A → MCTree S A) {t : MCTree S A}
    {i : Nat} (h : (MCTree.children t)[i]? = none) (p : List Nat) :
    updateAt f t (i :: p) = t := by
  show (match (MCTree.children t)[i]? with
    | none => t
    | some c => MCTree.setChildren t
        ((MCTree.children t).set i (updateAt f c p))) = _
  rw [h]

theorem follow_take_isSome (t : MCTree S A) (p : List Nat) (k : Nat)
    (h : (follow t p).isSome = true) : (follow t (p.take k)).isSome = true := by
  induction p generalizing t k with
  | nil => simp
  | cons i p' ih =>
    cases k with
    | zero => simp
    | succ k' =>
      rw [List.take_succ_cons]
      cases hC : (MCTree.children t)[i]? with
      | none => rw [follow_cons_none hC] at h; simp at h
      | some c =>
        rw [follow_cons_some hC] at h
        rw [follow_cons_some hC]
        exact ih c k' h

/-- A child of a `childrenLinked` tree has its parent link set and is itself
`childrenLinked`. -/
theorem childrenLinked_mem {t : MCTree S A} (hl : childrenLinked t = true)
    {c : MCTree S A} (hc : c ∈ MCTree.children t) :
    MCTree.hasParent c = true ∧ childrenLinked c = true := by
  cases t with
  | mk s a h w n cs =>
    rw [childrenLinked] at hl
    simp only [List.all_eq_true] at hl
    simp only [MCTree.children_mk] at hc
    have := hl ⟨c, hc⟩ (List.mem_attach _ _)
    simpa using this

/-- In a `childrenLinked` tree, the node at any nonempty path has its parent
link set. -/
theorem childrenLinked_hasParent {t : MCTree S A}
    (hl : childrenLinked t = true) {p : List Nat} {u : MCTree S A}
    (hu : follow t p = some u) (hp : p ≠ []) :
    MCTree.hasParent u = true := by
  induction p generalizing t with
  | nil => exact absurd rfl hp
  | cons i p' ih =>
    cases hC : (MCTree.children t)[i]? with
    | none => rw [follow_cons_none hC] at hu; exact absurd hu (by simp)
    | some c =>
      rw [follow_cons_some hC] at hu
      have hmem : c ∈ MCTree.children t := by
        rcases List.getElem?_eq_some.mp hC with ⟨hlt, hget⟩
        exact hget ▸ List.getElem_mem _
      obtain ⟨hcp, hcl⟩ := childrenLinked_mem hl hmem
      cases p' with
      | nil =>
        rw [follow_nil] at hu
        cases hu
        exact hcp
      | cons j p'' => exact ih hcl hu (by simp)

/-- `updateAt` with a statistics-only policy changes the node data at
exactly the targeted path and nowhere else. -/
theorem nodeDataAt_updateAt (pol : MCTree S A → MCTree S A)
    (W T : S → Rat → Rat → Rat)
    (hpol : ∀ u, pol u = MCTree.setStats u
      (W (MCTree.state u) (MCTree.won_games u) (MCTree.total_games u))
      (T (MCTree.state u) (MCTree.won_games u) (MCTree.total_games u)))
    (t : MCTree S A) (p q : List Nat) :
    nodeDataAt (updateAt pol t p) q
      = if q = p then (nodeDataAt t q).map (fun d =>
          ⟨d.state, d.action, d.hasParent,
            W d.state d.won_games d.total_games,
            T d.state d.won_games d.total_games, d.numChildren⟩)
        else nodeDataAt t q := by
  induction p generalizing t q with
  | nil =>
    rw [updateAt_nil, hpol]
    cases q with
    | nil => simp [nodeDataAt]
    | cons j q' =>
      rw [if_neg (by simp)]
      unfold nodeDataAt
      rw [follow_cons, follow_cons, MCTree.children_setStats]
  | cons i p' ih =>
    cases hC : (MCTree.children t)[i]? with
    | none =>
      rw [updateAt_cons_none _ hC]
      by_cases hq : q = i :: p'
      · subst hq
        rw [if_pos rfl]
        unfold nodeDataAt
        rw [follow_cons_none hC]
        rfl
      · rw [if_neg hq]
    | some c =>
      rw [updateAt_cons_some _ hC]
      have hlt : i < (MCTree.children t).length :=
        (List.getElem?_eq_some.mp hC).1
      cases q with
      | nil =>
        rw [if_neg (by simp)]
        unfold nodeDataAt
        rw [follow_nil, follow_nil]
        simp
      | cons j q' =>
        by_cases hij : j = i
        · subst hij
          have hset : ((MCTree.children t).set j (updateAt pol c p'))[j]?
              = some (updateAt pol c p') :=
            List.getElem?_set_eq_of_lt _ hlt
          unfold nodeDataAt
          rw [follow_cons, follow_cons, MCTree.children_setChildren, hset, hC]
          have hih := ih c q'
          unfold nodeDataAt at hih
          by_cases hq : q' = p'
          · rw [if_pos (by rw [hq]), hih, if_pos hq]
          · rw [if_neg (by simpa using hq), hih, if_neg hq]
        · have hset : ((MCTree.children t).set i (updateAt pol c p'))[j]?
              = (MCTree.children t)[j]? :=
            List.getElem?_set_ne (fun h => hij h.symm)
          rw [if_neg (by simp [hij])]
          unfold nodeDataAt
          rw [follow_cons, follow_cons, MCTree.children_setChildren, hset]

/-- A statistics-only update leaves every parent link unchanged. -/
theorem follow_updateAt_hasParent (pol : MCTree S A → MCTree S A)
    (W T : S → Rat → Rat → Rat)
    (hpol : ∀ u, pol u = MCTree.setStats u
      (W (MCTree.state u) (MCTree.won_games u) (MCTree.total_games u))
      (T (MCTree.state u) (MCTree.won_games u) (MCTree.total_games u)))
    (t : MCTree S A) (p q : List Nat) :
    (follow (updateAt pol t p) q).map (fun u => MCTree.hasParent u)
      = (follow t q).map (fun u => MCTree.hasParent u) := by
  have e1 : ∀ (t : MCTree S A) (q : List Nat),
      (follow t q).map (fun u => MCTree.hasParent u)
        = (nodeDataAt t q).map (fun d => d.hasParent) := by
    intro t q
    unfold nodeDataAt
    cases follow t q <;> rfl
  rw [e1, e1, nodeDataAt_updateAt pol W T hpol]
  by_cases hq : q = p
  · rw [if_pos hq, Option.map_map]
    cases nodeDataAt t q <;> rfl
  · rw [if_neg hq]

/-- A statistics-only update preserves path validity. -/
theorem follow_updateAt_isSome (pol : MCTree S A → MCTree S A)
    (W T : S → Rat → Rat → Rat)
    (hpol : ∀ u, pol u = MCTree.setStats u
      (W (MCTree.state u) (MCTree.won_games u) (MCTree.total_games u))
      (T (MCTree.state u) (MCTree.won_games u) (MCTree.total_games u)))
    (t : MCTree S A) (p q : List Nat) :
    (follow (updateAt pol t p) q).isSome = (follow t q).isSome := by
  have e1 : ∀ (t : MCTree S A) (q : List Nat),
      (follow t q).isSome = (nodeDataAt t q).isSome := by
    intro t q
    unfold nodeDataAt
    cases follow t q <;> rfl
  rw [e1, e1, nodeDataAt_updateAt pol W T hpol]
  by_cases hq : q = p
  · rw [if_pos hq]
    cases nodeDataAt t q <;> rfl
  · rw [if_neg hq]

theorem backup_result_eq (pol : MCTree S A → MCTree S A) (t : MCTree S A)
    (p : List Nat) :
    backup_result pol t p = match follow t p with
      | none => t
      | some u =>
        if p ≠ [] ∧ MCTree.hasParent u = true then
          backup_result pol (updateAt pol t p) p.dropLast
        else updateAt pol t p := by
  rw [backup_result]

theorem backup_result_some (pol : MCTree S A → MCTree S A)
    {t u : MCTree S A} {p : List Nat} (h : follow t p = some u) :
    backup_result pol t p
      = if p ≠ [] ∧ MCTree.hasParent u = true then
          backup_result pol (updateAt pol t p) p.dropLast
        else updateAt pol t p := by
  rw [backup_result_eq, h]

/-- Core lemma for the backpropagation loop: with every parent link set
(sound tree), `backup_result` applies the statistics update exactly once to
the node at every ancestor path of `p` (including `p` itself and the root
`[]`) and leaves the data of every other node unchanged. -/
theorem backup_nodeDataAt (pol : MCTree S A → MCTree S A)
    (W T : S → Rat → Rat → Rat)
    (hpol : ∀ u, pol u = MCTree.setStats u
      (W (MCTree.state u) (MCTree.won_games u) (MCTree.total_games u))
      (T (MCTree.state u) (MCTree.won_games u) (MCTree.total_games u)))
    (p : List Nat) : ∀ (t : MCTree S A),
    MCTree.hasParent t = false →
    (∀ q u, follow t q = some u → q ≠ [] → MCTree.hasParent u = true) →
    (follow t p).isSome = true →
    ∀ q, nodeDataAt (backup_result pol t p) q
      = if p.take q.length = q
        then (nodeDataAt t q).map (fun d =>
          ⟨d.state, d.action, d.hasParent,
            W d.state d.won_games d.total_games,
            T d.state d.won_games d.total_games, d.numChildren⟩)
        else nodeDataAt t q := by
  induction p using List.reverseRecOn with
  | nil =>
    intro t hroot hlink hvalid q
    rw [backup_result_some pol (follow_nil t), if_neg (by simp)]
    have hupd := nodeDataAt_updateAt pol W T hpol t [] q
    by_cases hq : q = []
    · subst hq
      simpa using hupd
    · rw [hupd, if_neg hq, if_neg ?_]
      intro h
      rw [List.take_nil] at h
      exact hq h.symm
  | append_singleton as i ih =>
    intro t hroot hlink hvalid
    obtain ⟨u, hu⟩ := Option.isSome_iff_exists.mp hvalid
    have hpu : MCTree.hasParent u = true := hlink _ u hu (by simp)
    rw [backup_result_some pol hu, if_pos ⟨by simp, hpu⟩,
      List.dropLast_concat]
    have hroot' : MCTree.hasParent (updateAt pol t (as ++ [i])) = false := by
      have h := follow_updateAt_hasParent pol W T hpol t (as ++ [i]) []
      simp only [follow_nil, Option.map_some', Option.some.injEq] at h
      exact h.trans hroot
    have hlink' : ∀ q u', follow (updateAt pol t (as ++ [i])) q = some u' →
        q ≠ [] → MCTree.hasParent u' = true := by
      intro q u' hu' hq
      have h := follow_updateAt_hasParent pol W T hpol t (as ++ [i]) q
      rw [hu'] at h
      cases hfq : follow t q with
      | none => rw [hfq] at h; simp at h
      | some v =>
        rw [hfq] at h
        simp only [Option.map_some', Option.some.injEq] at h
        rw [h]
        exact hlink q v hfq hq
    have hvalid' : (follow (updateAt pol t (as ++ [i])) as).isSome = true := by
      rw [follow_updateAt_isSome pol W T hpol]
      have h2 := follow_take_isSome t (as ++ [i]) as.length hvalid
      rwa [List.take_left] at h2
    intro q
    rw [ih _ hroot' hlink' hvalid' q]
    have hupd := nodeDataAt_updateAt pol W T hpol t (as ++ [i]) q
    by_cases hanc : (as ++ [i]).take q.length = q
    · rw [if_pos hanc]
      by_cases hqp : q = as ++ [i]
      · have hne : as.take q.length ≠ q := by
          intro he
          have hl1 := congrArg List.length he
          rw [List.length_take] at hl1
          have hl2 : q.length = as.length + 1 := by rw [hqp]; simp
          omega
        rw [if_neg hne, hupd, if_pos hqp]
      · have hlt : q.length < (as ++ [i]).length := by
          have hl1 := congrArg List.length hanc
          rw [List.length_take] at hl1
          rcases Nat.lt_or_ge q.length (as ++ [i]).length with h | h
          · exact h
          · exfalso
            apply hqp
            have : q.length = (as ++ [i]).length ∨
                (as ++ [i]).length < q.length := by omega
            rw [← hanc]
            rcases Nat.le_total (as ++ [i]).length q.length with h3 | h3
            · rw [List.take_of_length_le h3]
            · have : q.length = (as ++ [i]).length := le_antisymm h3 h
              rw [this, List.take_length]
        have hle : q.length ≤ as.length := by
          rw [List.length_append, List.length_singleton] at hlt
          omega
        have hanc' : as.take q.length = q := by
          rw [← List.take_append_of_le_length hle]
          exact hanc
        rw [if_pos hanc', hupd, if_neg hqp]
    · rw [if_neg hanc]
      have hqp : q ≠ as ++ [i] := by
        intro he
        exact hanc (by rw [he, List.take_length])
      have hanc' : as.take q.length ≠ q := by
        intro he
        have hle : q.length ≤ as.length := by
          have hl1 := congrArg List.length he
          rw [List.length_take] at hl1
          omega
        exact hanc (by rw [List.take_append_of_le_length hle, he])
      rw [if_neg hanc', hupd, if_neg hqp]

/-- C4: in a finite tree with acyclic parent links (the `parent` attribute
set on every non-root node and unset on the root), `backup_result` starting
at the node at path `p` applies the backup policy exactly once to each node
on the path from that node to the root inclusive (the paths `p.take k`) and
to no other node; with the default `win_loss_ratio` policy each such node's
`total_games` is incremented by exactly 1 and its `won_games` by exactly 1
iff that node's state's current player equals the result. Backup policies
are statistics updates computed from the node's own state and counts. -/
theorem backup_result_updates_path (t : MCTree S A) (p : List Nat)
    (hroot : MCTree.hasParent t = false)
    (hlinked : childrenLinked t = true)
    (hvalid : (follow t p).isSome = true) :
    (∀ (pol : MCTree S A → MCTree S A) (W T : S → Rat → Rat → Rat),
      (∀ u, pol u = MCTree.setStats u
        (W (MCTree.state u) (MCTree.won_games u) (MCTree.total_games u))
        (T (MCTree.state u) (MCTree.won_games u) (MCTree.total_games u))) →
      ∀ q, nodeDataAt (backup_result pol t p) q
        = if p.take q.length = q
          then (nodeDataAt t q).map (fun d =>
            ⟨d.state, d.action, d.hasParent,
              W d.state d.won_games d.total_games,
              T d.state d.won_games d.total_games, d.numChildren⟩)
          else nodeDataAt t q)
    ∧ (∀ (g : Game S A) (winner : Nat) (q : List Nat),
        nodeDataAt (backup_result (win_loss_ratio g winner) t p) q
          = if p.take q.length = q
            then (nodeDataAt t q).map (fun d =>
              ⟨d.state, d.action, d.hasParent,
                (if Game.current_player g d.state = winner
                  then d.won_games + 1 else d.won_games),
                d.total_games + 1, d.numChildren⟩)
            else nodeDataAt t q) := by
  constructor
  · intro pol W T hpol q
    exact backup_nodeDataAt pol W T hpol p t hroot
      (fun q u hu hq => childrenLinked_hasParent hlinked hu hq) hvalid q
  · intro g winner q
    exact backup_nodeDataAt (win_loss_ratio g winner)
      (fun s w n => if Game.current_player g s = winner then w + 1 else w)
      (fun s w n => n + 1) (fun u => rfl) p t hroot
      (fun q u hu hq => childrenLinked_hasParent hlinked hu hq) hvalid q

/-- Witness for C4: backing up result `1` from the single child of a
two-node tree increments the statistics of both the child and the root
exactly once (the root's player `5 % 2 = 1` wins, the child's player
`4 % 2 = 0` does not). -/
theorem backup_result_updates_path_witness :
    nodeDataAt (backup_result (win_loss_ratio testGame 1)
        (MCTree.mk (5:Nat) (none : Option Nat) false 0 0
          [MCTree.mk 4 (some 1) true 1 2 []]) [0]) []
      = some ⟨5, none, false, 1, 1, 1⟩
    ∧ nodeDataAt (backup_result (win_loss_ratio testGame 1)
        (MCTree.mk (5:Nat) (none : Option Nat) false 0 0
          [MCTree.mk 4 (some 1) true 1 2 []]) [0]) [0]
      = some ⟨4, some 1, true, 1, 3, 0⟩ := by
  have h := (backup_result_updates_path
      (MCTree.mk (5:Nat) (none : Option Nat) false 0 0
        [MCTree.mk 4 (some 1) true 1 2 []]) [0] rfl
      (by simp [childrenLinked]) rfl).2 testGame 1
  constructor
  · have h0 := h []
    rw [if_pos (by simp)] at h0
    rw [h0]
    norm_num [nodeDataAt, testGame]
  · have h0 := h [0]
    rw [if_pos (by simp)] at h0
    rw [h0]
    norm_num [nodeDataAt, follow_cons, testGame]

/-- C10: every child that `combine_root_actions` adds for an action present
only in the other tree is created with its parent reference equal to `None`
(`hasParent = false`, not a link to `self`); consequently a backup started
at such a child updates only that child and never reaches `self` (the root)
or any other node. -/
theorem combine_child_backup_only_child [DecidableEq A]
    (t other : MCTree S A) (a : A)
    (hother : ((MCTree.children other).map (fun c => MCTree.action c)).Nodup)
    (hmem : some a ∈ (MCTree.children other).map (fun c => MCTree.action c))
    (hnot : some a ∉ (MCTree.children t).map (fun c => MCTree.action c))
    (j : Nat) (c : MCTree S A)
    (hj : (MCTree.children (combine_root_actions t other))[j]? = some c)
    (hc : MCTree.action c = some a) :
    MCTree.hasParent c = false
    ∧ ∀ (pol : MCTree S A → MCTree S A) (W T : S → Rat → Rat → Rat),
      (∀ u, pol u = MCTree.setStats u
        (W (MCTree.state u) (MCTree.won_games u) (MCTree.total_games u))
        (T (MCTree.state u) (MCTree.won_games u) (MCTree.total_games u))) →
      ∀ q, nodeDataAt (backup_result pol (combine_root_actions t other) [j]) q
        = if q = [j]
          then (nodeDataAt (combine_root_actions t other) q).map (fun d =>
            ⟨d.state, d.action, d.hasParent,
              W d.state d.won_games d.total_games,
              T d.state d.won_games d.total_games, d.numChildren⟩)
          else nodeDataAt (combine_root_actions t other) q := by
  have hpar : MCTree.hasParent c = false := by
    obtain ⟨c0, _, _, hfil⟩ := combine_new_child t other a hother hmem hnot
    have hcm : c ∈ MCTree.children (combine_root_actions t other) := by
      rcases List.getElem?_eq_some.mp hj with ⟨hlt, hget⟩
      exact hget ▸ List.getElem_mem _
    have : c ∈ (MCTree.children (combine_root_actions t other)).filter
        (fun x => decide (MCTree.action x = some a)) :=
      List.mem_filter.mpr ⟨hcm, by simp [hc]⟩
    rw [hfil] at this
    rcases List.mem_singleton.mp this with rfl
    rfl
  refine ⟨hpar, fun pol W T hpol q => ?_⟩
  have hfol : follow (combine_root_actions t other) [j] = some c := by
    rw [follow_cons_some hj, follow_nil]
  rw [backup_result_some pol hfol,
    if_neg (by simp [hpar]), nodeDataAt_updateAt pol W T hpol]

/-- Witness for C10 at a concrete pair of trees: the combined child has no
parent link and a backup from it leaves the root's data unchanged. -/
theorem combine_child_backup_only_child_witness :
    MCTree.hasParent (MCTree.mk (5:Nat) (some 1) false 1 1 []) = false
    ∧ nodeDataAt (backup_result (win_loss_ratio testGame 0)
        (combine_root_actions
          (MCTree.init (5:Nat) (none : Option Nat) false)
          (MCTree.setChildren (MCTree.init (5:Nat) (none : Option Nat) false)
            [MCTree.mk 4 (some 1) false 1 1 []])) [0]) []
      = nodeDataAt (combine_root_actions
          (MCTree.init (5:Nat) (none : Option Nat) false)
          (MCTree.setChildren (MCTree.init (5:Nat) (none : Option Nat) false)
            [MCTree.mk 4 (some 1) false 1 1 []])) [] := by
  have h := combine_child_backup_only_child
    (MCTree.init (5:Nat) (none : Option Nat) false)
    (MCTree.setChildren (MCTree.init (5:Nat) (none : Option Nat) false)
      [MCTree.mk 4 (some 1) false 1 1 []]) 1
    (by simp [MCTree.init]) (by simp [MCTree.init]) (by simp [MCTree.init])
    0 (MCTree.mk (5:Nat) (some 1) false 1 1 [])
    (by simp [combine_root_actions, bump, MCTree.init]) rfl
  refine ⟨h.1, ?_⟩
  have h2 := h.2 (win_loss_ratio testGame 0)
    (fun s w n => if Game.current_player testGame s = 0 then w + 1 else w)
    (fun s w n => n + 1) (fun u => rfl) []
  simpa using h2

/-! ### Selection and expansion -/

/-- `MCTree._expand` (src/mopy/mctree.py lines 157-169): collect the legal
actions not carried by any child, pick one (`random.choice`, embedded as the
oracle index `rng` modulo the number of novel actions), apply it to a clone
of the current state, append the new child (constructed with `parent=self`,
so `hasParent = true`) and return it. Here the updated tree is returned
together with the path of the new node. On an empty `new_actions` the source
raises `IndexError` from `random.choice`; that case (unreachable under the
game contract) returns the tree unchanged. -/
def expand [DecidableEq A] (g : Game S A) (rng : Nat) (t : MCTree S A) :
    MCTree S A × List Nat :=
  let all_actions := Game.get_legal_actions g (MCTree.state t)
  let explored_actions := (MCTree.children t).map (fun c => MCTree.action c)
  let new_actions := all_actions.filter
    (fun a => decide (some a ∉ explored_actions))
  if h : new_actions = [] then (t, [])
  else
    let next_action := new_actions.get
      ⟨rng % new_actions.length, Nat.mod_lt _ (List.length_pos.mpr h)⟩
    let next_state := Game.do_action g (MCTree.state t) next_action
    let new_node := MCTree.mk next_state (some next_action) true 0 0 []
    (MCTree.setChildren t ((MCTree.children t) ++ [new_node]),
      [(MCTree.children t).length])

/-- `MCTree.select` (src/mopy/mctree.py lines 51-73): while the game at the
current node's state is not over, expand if fewer actions are explored than
are legal, otherwise descend into the child chosen by the selection policy.
Returns the updated tree and the path of the returned node. A selection
policy returns a child object in the source; it is embedded as returning
the child's index (an out-of-range index, impossible for the source's
policies, returns the current node). -/
def select [DecidableEq A] (g : Game S A) (sel_policy : MCTree S A → Nat)
    (rng : Nat) (t : MCTree S A) : MCTree S A × List Nat :=
  if Game.is_over g (MCTree.state t) then (t, [])
  else
    if (MCTree.children t).length
        < (Game.get_legal_actions g (MCTree.state t)).length then
      expand g rng t
    else
      match hC : (MCTree.children t)[sel_policy t]? with
      | none => (t, [])
      | some c =>
        (MCTree.setChildren t ((MCTree.children t).set (sel_policy t)
            (select g sel_policy rng c).1),
          sel_policy t :: (select g sel_policy rng c).2)
termination_by sizeOf t
decreasing_by
  all_goals
    rcases List.getElem?_eq_some.mp hC with ⟨hlt, hget⟩
    have hm : c ∈ MCTree.children t := hget ▸ List.getElem_mem _
    have h2 := List.sizeOf_lt_of_mem hm
    cases t
    simp only [MCTree.children_mk] at h2
    simp only [MCTree.mk.sizeOf_spec]
    omega

/-- When fewer children exist than there are legal actions and the legal
actions are pairwise distinct, some legal action is unexplored. -/
theorem exists_unexplored [DecidableEq A] (legal : List A)
    (explored : List (Option A)) (hnd : legal.Nodup)
    (hlt : explored.length < legal.length) :
    legal.filter (fun a => decide (some a ∉ explored)) ≠ [] := by
  intro hfil
  have hall : ∀ a ∈ legal, some a ∈ explored := by
    intro a ha
    by_contra hna
    have hmm : a ∈ legal.filter (fun a => decide (some a ∉ explored)) :=
      List.mem_filter.mpr ⟨ha, by simpa using hna⟩
    rw [hfil] at hmm
    simp at hmm
  have hsub : (legal.map some).toFinset ⊆ explored.toFinset := by
    intro x hx
    rw [List.mem_toFinset] at hx ⊢
    rcases List.mem_map.mp hx with ⟨a, ha, rfl⟩
    exact hall a ha
  have h1 : (legal.map some).toFinset.card = legal.length := by
    rw [List.toFinset_card_of_nodup
      (hnd.map (fun a b h => Option.some.inj h))]
    simp
  have h2 := Finset.card_le_card hsub
  have h3 := List.toFinset_card_le explored
  omega

theorem select_terminal [DecidableEq A] (g : Game S A)
    (sel_policy : MCTree S A → Nat) (rng : Nat) (t : MCTree S A)
    (h : Game.is_over g (MCTree.state t) = true) :
    select g sel_policy rng t = (t, []) := by
  rw [select, if_pos h]

theorem select_expand [DecidableEq A] (g : Game S A)
    (sel_policy : MCTree S A → Nat) (rng : Nat) (t : MCTree S A)
    (h1 : Game.is_over g (MCTree.state t) = false)
    (h2 : (MCTree.children t).length
      < (Game.get_legal_actions g (MCTree.state t)).length) :
    select g sel_policy rng t = expand g rng t := by
  rw [select, if_neg (by simp [h1]), if_pos h2]

theorem select_delegate [DecidableEq A] (g : Game S A)
    (sel_policy : MCTree S A → Nat) (rng : Nat) (t c : MCTree S A)
    (h1 : Game.is_over g (MCTree.state t) = false)
    (h2 : ¬ (MCTree.children t).length
      < (Game.get_legal_actions g (MCTree.state t)).length)
    (hC : (MCTree.children t)[sel_policy t]? = some c) :
    select g sel_policy rng t
      = (MCTree.setChildren t ((MCTree.children t).set (sel_policy t)
          (select g sel_policy rng c).1),
        sel_policy t :: (select g sel_policy rng c).2) := by
  rw [select, if_neg (by simp [h1]), if_neg h2]
  split
  · rename_i heq
    rw [hC] at heq
    cases heq
  · rename_i c' heq
    rw [hC] at heq
    cases heq
    rfl

/-- Characterization of `expand` when an unexplored action exists: exactly
one new child is appended, its action an unexplored legal action, its state
the action applied to (a clone of) the current state, its statistics zero,
its parent link set; the path of the appended child is returned. -/
theorem expand_spec [DecidableEq A] (g : Game S A) (rng : Nat)
    (t : MCTree S A)
    (hne : (Game.get_legal_actions g (MCTree.state t)).filter
      (fun a => decide (some a
        ∉ (MCTree.children t).map (fun c => MCTree.action c))) ≠ []) :
    ∃ a, a ∈ Game.get_legal_actions g (MCTree.state t)
      ∧ some a ∉ (MCTree.children t).map (fun c => MCTree.action c)
      ∧ expand g rng t = (MCTree.setChildren t ((MCTree.children t)
          ++ [MCTree.mk (Game.do_action g (MCTree.state t) a) (some a)
              true 0 0 []]),
        [(MCTree.children t).length]) := by
  refine ⟨((Game.get_legal_actions g (MCTree.state t)).filter
      (fun a => decide (some a
        ∉ (MCTree.children t).map (fun c => MCTree.action c)))).get
      ⟨rng % _, Nat.mod_lt _ (List.length_pos.mpr hne)⟩, ?_, ?_, ?_⟩
  · have hm := List.get_mem ((Game.get_legal_actions g (MCTree.state t)).filter
      (fun a => decide (some a
        ∉ (MCTree.children t).map (fun c => MCTree.action c))))
      (rng % _) (Nat.mod_lt _ (List.length_pos.mpr hne))
    exact (List.mem_filter.mp hm).1
  · have hm := List.get_mem ((Game.get_legal_actions g (MCTree.state t)).filter
      (fun a => decide (some a
        ∉ (MCTree.children t).map (fun c => MCTree.action c))))
      (rng % _) (Nat.mod_lt _ (List.length_pos.mpr hne))
    have := (List.mem_filter.mp hm).2
    simpa using this
  · rw [expand]
    rw [dif_neg hne]

/-- C5: `select` returns a terminal node immediately; at a non-terminal node
with fewer explored children than (pairwise-distinct) legal actions it
creates exactly one new child — action an unexplored legal action chosen via
the random oracle, state produced by applying that action to a clone of the
current state, zero statistics, parent link set — appends it after the
existing children and returns it; otherwise it continues the loop from the
child chosen by the selection policy. -/
theorem select_spec [DecidableEq A] (g : Game S A)
    (sel_policy : MCTree S A → Nat) (rng : Nat) (t : MCTree S A) :
    (Game.is_over g (MCTree.state t) = true →
      select g sel_policy rng t = (t, []))
    ∧ (Game.is_over g (MCTree.state t) = false →
      (MCTree.children t).length
          < (Game.get_legal_actions g (MCTree.state t)).length →
      (Game.get_legal_actions g (MCTree.state t)).Nodup →
      ∃ a, a ∈ Game.get_legal_actions g (MCTree.state t)
        ∧ some a ∉ (MCTree.children t).map (fun c => MCTree.action c)
        ∧ select g sel_policy rng t
            = (MCTree.setChildren t ((MCTree.children t)
                ++ [MCTree.mk (Game.do_action g (MCTree.state t) a) (some a)
                    true 0 0 []]),
              [(MCTree.children t).length]))
    ∧ (Game.is_over g (MCTree.state t) = false →
      ¬ (MCTree.children t).length
          < (Game.get_legal_actions g (MCTree.state t)).length →
      ∀ c, (MCTree.children t)[sel_policy t]? = some c →
      select g sel_policy rng t
        = (MCTree.setChildren t ((MCTree.children t).set (sel_policy t)
            (select g sel_policy rng c).1),
          sel_policy t :: (select g sel_policy rng c).2)) := by
  refine ⟨select_terminal g sel_policy rng t, ?_, ?_⟩
  · intro h1 h2 hnd
    have hne := exists_unexplored (Game.get_legal_actions g (MCTree.state t))
      ((MCTree.children t).map (fun c => MCTree.action c)) hnd
      (by simpa using h2)
    rw [select_expand g sel_policy rng t h1 h2]
    exact expand_spec g rng t hne
  · intro h1 h2 c hC
    exact select_delegate g sel_policy rng t c h1 h2 hC

/-- Witness for C5 at concrete trees: a terminal node is returned as-is; a
non-terminal node with unexplored actions gets exactly one new child; a
fully-expanded node delegates to the selection policy. -/
theorem select_spec_witness :
    select testGame (fun _ => 0) 0 (MCTree.init (0:Nat) (none : Option Nat)
        false) = (MCTree.init (0:Nat) (none : Option Nat) false, [])
    ∧ (∃ a, a ∈ Game.get_legal_actions testGame 2
        ∧ some a ∉ (MCTree.children (MCTree.init (2:Nat) (none : Option Nat)
            false)).map (fun c => MCTree.action c)
        ∧ select testGame (fun _ => 0) 0
            (MCTree.init (2:Nat) (none : Option Nat) false)
            = (MCTree.setChildren (MCTree.init (2:Nat) (none : Option Nat)
                  false)
                ((MCTree.children (MCTree.init (2:Nat) (none : Option Nat)
                    false))
                  ++ [MCTree.mk (Game.do_action testGame 2 a) (some a)
                      true 0 0 []]),
              [(MCTree.children (MCTree.init (2:Nat) (none : Option Nat)
                  false)).length]))
    ∧ select testGame (fun _ => 0) 0
        (MCTree.mk (1:Nat) (none : Option Nat) false 1 1
          [MCTree.mk 0 (some 1) true 1 1 []])
      = (MCTree.setChildren (MCTree.mk (1:Nat) (none : Option Nat) false 1 1
            [MCTree.mk 0 (some 1) true 1 1 []])
          ((MCTree.children (MCTree.mk (1:Nat) (none : Option Nat) false 1 1
              [MCTree.mk 0 (some 1) true 1 1 []])).set 0
            (select testGame (fun _ => 0) 0
              (MCTree.mk (0:Nat) (some 1) true 1 1 [])).1),
        0 :: (select testGame (fun _ => 0) 0
          (MCTree.mk (0:Nat) (some 1) true 1 1 [])).2) := by
  refine ⟨?_, ?_, ?_⟩
  · exact (select_spec testGame (fun _ => 0) 0
      (MCTree.init (0:Nat) (none : Option Nat) false)).1 rfl
  · exact (select_spec testGame (fun _ => 0) 0
      (MCTree.init (2:Nat) (none : Option Nat) false)).2.1 rfl (by decide)
      (by decide)
  · exact (select_spec testGame (fun _ => 0) 0
      (MCTree.mk (1:Nat) (none : Option Nat) false 1 1
        [MCTree.mk 0 (some 1) true 1 1 []])).2.2 rfl (by decide) _ rfl

/-! ### The statistics invariant `total ≥ won ≥ 0` -/

/-- `total_games ≥ won_games ≥ 0` holds at every node of the tree. -/
def statsOK : MCTree S A → Bool
  | .mk _ _ _ w n cs =>
    decide (0 ≤ w) && decide (w ≤ n) && cs.attach.all (fun c => statsOK c.1)
termination_by t => sizeOf t
decreasing_by
  have h := List.sizeOf_lt_of_mem c.2
  simp only [MCTree.mk.sizeOf_spec]
  omega

theorem statsOK_mk (s : S) (a : Option A) (h : Bool) (w n : Rat)
    (cs : List (MCTree S A)) :
    statsOK (MCTree.mk s a h w n cs) = true
      ↔ (0 ≤ w ∧ w ≤ n ∧ ∀ c ∈ cs, statsOK c = true) := by
  rw [statsOK]
  constructor
  · intro hh
    simp only [Bool.and_eq_true, decide_eq_true_eq, List.all_eq_true] at hh
    exact ⟨hh.1.1, hh.1.2, fun c hc => hh.2 ⟨c, hc⟩ (List.mem_attach _ _)⟩
  · rintro ⟨h1, h2, h3⟩
    simp only [Bool.and_eq_true, decide_eq_true_eq, List.all_eq_true]
    exact ⟨⟨h1, h2⟩, fun c _ => h3 c.1 c.2⟩

theorem statsOK_updateAt (pol : MCTree S A → MCTree S A)
    (hpolstat : ∀ u, 0 ≤ MCTree.won_games u →
      MCTree.won_games u ≤ MCTree.total_games u →
      0 ≤ MCTree.won_games (pol u)
        ∧ MCTree.won_games (pol u) ≤ MCTree.total_games (pol u))
    (hpolkids : ∀ u, MCTree.children (pol u) = MCTree.children u)
    (t : MCTree S A) (p : List Nat) (hok : statsOK t = true) :
    statsOK (updateAt pol t p) = true := by
  induction p generalizing t with
  | nil =>
    rw [updateAt_nil]
    cases t with
    | mk s a h w n cs =>
      obtain ⟨h1, h2, h3⟩ := (statsOK_mk s a h w n cs).mp hok
      obtain ⟨h4, h5⟩ := hpolstat (MCTree.mk s a h w n cs) (by simpa using h1)
        (by simpa using h2)
      have h6 := hpolkids (MCTree.mk s a h w n cs)
      cases hp : pol (MCTree.mk s a h w n cs) with
      | mk s' a' h' w' n' cs' =>
        rw [hp] at h4 h5 h6
        simp only [MCTree.won_games_mk, MCTree.total_games_mk,
          MCTree.children_mk] at h4 h5 h6
        exact (statsOK_mk s' a' h' w' n' cs').mpr
          ⟨h4, h5, by rw [h6]; exact h3⟩
  | cons i p' ih =>
    cases hC : (MCTree.children t)[i]? with
    | none => rw [updateAt_cons_none _ hC]; exact hok
    | some c =>
      rw [updateAt_cons_some _ hC]
      cases t with
      | mk s a h w n cs =>
        obtain ⟨h1, h2, h3⟩ := (statsOK_mk s a h w n cs).mp hok
        simp only [MCTree.children_mk] at hC ⊢
        rw [MCTree.setChildren_mk]
        refine (statsOK_mk s a h w n _).mpr ⟨h1, h2, fun x hx => ?_⟩
        rcases List.mem_or_eq_of_mem_set hx with hx' | rfl
        · exact h3 x hx'
        · have hcm : c ∈ cs := by
            rcases List.getElem?_eq_some.mp hC with ⟨hlt, hget⟩
            exact hget ▸ List.getElem_mem _
          exact ih c (h3 c hcm)

theorem statsOK_backup (pol : MCTree S A → MCTree S A)
    (hpolstat : ∀ u, 0 ≤ MCTree.won_games u →
      MCTree.won_games u ≤ MCTree.total_games u →
      0 ≤ MCTree.won_games (pol u)
        ∧ MCTree.won_games (pol u) ≤ MCTree.total_games (pol u))
    (hpolkids : ∀ u, MCTree.children (pol u) = MCTree.children u)
    (p : List Nat) : ∀ t : MCTree S A, statsOK t = true →
    statsOK (backup_result pol t p) = true := by
  induction p using List.reverseRecOn with
  | nil =>
    intro t hok
    rw [backup_result_some pol (follow_nil t), if_neg (by simp)]
    exact statsOK_updateAt pol hpolstat hpolkids t [] hok
  | append_singleton as i ih =>
    intro t hok
    cases hf : follow t (as ++ [i]) with
    | none =>
      have he : backup_result pol t (as ++ [i]) = t := by
        rw [backup_result_eq, hf]
      rw [he]
      exact hok
    | some u =>
      rw [backup_result_some pol hf]
      by_cases hcond : ((as ++ [i]) ≠ [] ∧ MCTree.hasParent u = true)
      · rw [if_pos hcond, List.dropLast_concat]
        exact ih _ (statsOK_updateAt pol hpolstat hpolkids t _ hok)
      · rw [if_neg hcond]
        exact statsOK_updateAt pol hpolstat hpolkids t _ hok

theorem statsOK_expand [DecidableEq A] (g : Game S A) (rng : Nat)
    (t : MCTree S A) (hok : statsOK t = true) :
    statsOK (expand g rng t).1 = true := by
  rw [expand]
  split
  · exact hok
  · cases t with
    | mk s a h w n cs =>
      obtain ⟨h1, h2, h3⟩ := (statsOK_mk s a h w n cs).mp hok
      simp only [MCTree.children_mk, MCTree.setChildren_mk]
      refine (statsOK_mk s a h w n _).mpr ⟨h1, h2, fun x hx => ?_⟩
      rcases List.mem_append.mp hx with hx' | hx'
      · exact h3 x hx'
      · rcases List.mem_singleton.mp hx' with rfl
        exact (statsOK_mk _ _ _ _ _ _).mpr ⟨le_refl 0, le_refl 0, by simp⟩

theorem select_policy_miss [DecidableEq A] (g : Game S A)
    (sel_policy : MCTree S A → Nat) (rng : Nat) (t : MCTree S A)
    (h1 : Game.is_over g (MCTree.state t) = false)
    (h2 : ¬ (MCTree.children t).length
      < (Game.get_legal_actions g (MCTree.state t)).length)
    (hC : (MCTree.children t)[sel_policy t]? = none) :
    select g sel_policy rng t = (t, []) := by
  rw [select, if_neg (by simp [h1]), if_neg h2]
  split
  · rfl
  · rename_i c heq
    rw [hC] at heq
    cases heq

theorem statsOK_select [DecidableEq A] (g : Game S A)
    (sel_policy : MCTree S A → Nat) (rng : Nat) : ∀ (t : MCTree S A),
    statsOK t = true → statsOK (select g sel_policy rng t).1 = true := by
  suffices hs : ∀ (n : Nat) (t : MCTree S A), sizeOf t ≤ n →
      statsOK t = true → statsOK (select g sel_policy rng t).1 = true by
    intro t
    exact hs (sizeOf t) t le_rfl
  intro n
  induction n with
  | zero =>
    intro t hsz
    exfalso
    cases t
    simp only [MCTree.mk.sizeOf_spec] at hsz
    omega
  | succ n ih =>
    intro t hsz hok
    by_cases hov : Game.is_over g (MCTree.state t) = true
    · rw [select_terminal g sel_policy rng t hov]
      exact hok
    · have hov' : Game.is_over g (MCTree.state t) = false := by
        simpa using hov
      by_cases hlt : (MCTree.children t).length
          < (Game.get_legal_actions g (MCTree.state t)).length
      · rw [select_expand g sel_policy rng t hov' hlt]
        exact statsOK_expand g rng t hok
      · cases hC : (MCTree.children t)[sel_policy t]? with
        | none =>
          rw [select_policy_miss g sel_policy rng t hov' hlt hC]
          exact hok
        | some c =>
          rw [select_delegate g sel_policy rng t c hov' hlt hC]
          have hcm : c ∈ MCTree.children t := by
            rcases List.getElem?_eq_some.mp hC with ⟨hlc, hget⟩
            exact hget ▸ List.getElem_mem _
          have hszc : sizeOf c ≤ n := by
            have h2 := List.sizeOf_lt_of_mem hcm
            cases t
            simp only [MCTree.children_mk] at h2
            simp only [MCTree.mk.sizeOf_spec] at hsz
            omega
          cases t with
          | mk s a h w nn cs =>
            obtain ⟨h1, h2, h3⟩ := (statsOK_mk s a h w nn cs).mp hok
            simp only [MCTree.children_mk, MCTree.setChildren_mk]
            refine (statsOK_mk s a h w nn _).mpr ⟨h1, h2, fun x hx => ?_⟩
            rcases List.mem_or_eq_of_mem_set hx with hx' | rfl
            · exact h3 x hx'
            · refine ih c hszc (h3 c ?_)
              simpa using hcm

theorem statsOK_combine [DecidableEq A] (t other : MCTree S A)
    (ht : statsOK t = true) (ho : statsOK other = true) :
    statsOK (combine_root_actions t other) = true := by
  have hWT : ∀ a : Option A,
      0 ≤ ((MCTree.children other).foldl
        (fun m x => bump m (MCTree.action x) (MCTree.won_games x))
        ((MCTree.children t).foldl
          (fun m x => bump m (MCTree.action x) (MCTree.won_games x))
          (fun _ => 0))) a
      ∧ ((MCTree.children other).foldl
        (fun m x => bump m (MCTree.action x) (MCTree.won_games x))
        ((MCTree.children t).foldl
          (fun m x => bump m (MCTree.action x) (MCTree.won_games x))
          (fun _ => 0))) a
        ≤ ((MCTree.children other).foldl
        (fun m x => bump m (MCTree.action x) (MCTree.total_games x))
        ((MCTree.children t).foldl
          (fun m x => bump m (MCTree.action x) (MCTree.total_games x))
          (fun _ => 0))) a := by
    intro a
    have hsub : ∀ (u : MCTree S A), statsOK u = true →
        ∀ c ∈ MCTree.children u,
          0 ≤ MCTree.won_games c
            ∧ MCTree.won_games c ≤ MCTree.total_games c := by
      intro u hu c hc
      cases u with
      | mk s aa hh w nn cs =>
        obtain ⟨_, _, h3⟩ := (statsOK_mk s aa hh w nn cs).mp hu
        simp only [MCTree.children_mk] at hc
        have := h3 c hc
        cases c with
        | mk s' a' h' w' n' cs' =>
          obtain ⟨hw, hn, _⟩ := (statsOK_mk s' a' h' w' n' cs').mp this
          exact ⟨by simpa using hw, by simpa using hn⟩
    rw [bump_foldl, bump_foldl, bump_foldl, bump_foldl]
    have hts := hsub t ht
    have hos := hsub other ho
    constructor
    · have p1 : (0:Rat) ≤ (((MCTree.children t).filter
          (fun c => decide (MCTree.action c = a))).map
          (fun c => MCTree.won_games c)).sum :=
        List.sum_nonneg (by
          intro x hx
          rcases List.mem_map.mp hx with ⟨c, hc, rfl⟩
          exact (hts c (List.mem_of_mem_filter hc)).1)
      have p2 : (0:Rat) ≤ (((MCTree.children other).filter
          (fun c => decide (MCTree.action c = a))).map
          (fun c => MCTree.won_games c)).sum :=
        List.sum_nonneg (by
          intro x hx
          rcases List.mem_map.mp hx with ⟨c, hc, rfl⟩
          exact (hos c (List.mem_of_mem_filter hc)).1)
      simp only [zero_add]
      exact add_nonneg (by simpa using p1) p2
    · have p1 : (((MCTree.children t).filter
          (fun c => decide (MCTree.action c = a))).map
          (fun c => MCTree.won_games c)).sum
          ≤ (((MCTree.children t).filter
          (fun c => decide (MCTree.action c = a))).map
          (fun c => MCTree.total_games c)).sum :=
        List.sum_le_sum (by
          intro c hc
          exact (hts c (List.mem_of_mem_filter hc)).2)
      have p2 : (((MCTree.children other).filter
          (fun c => decide (MCTree.action c = a))).map
          (fun c => MCTree.won_games c)).sum
          ≤ (((MCTree.children other).filter
          (fun c => decide (MCTree.action c = a))).map
          (fun c => MCTree.total_games c)).sum :=
        List.sum_le_sum (by
          intro c hc
          exact (hos c (List.mem_of_mem_filter hc)).2)
      exact add_le_add (add_le_add le_rfl p1) p2
  have hcomb : combine_root_actions t other
      = MCTree.setChildren t ((MCTree.children t
          ++ ((MCTree.children other).filter
              (fun c => decide (MCTree.action c ∉
                (MCTree.children t).map (fun x => MCTree.action x)))).map
            (fun c => MCTree.init (MCTree.state t) (MCTree.action c) false)).map
        (fun c => MCTree.setStats c
          (((MCTree.children other).foldl
            (fun m x => bump m (MCTree.action x) (MCTree.won_games x))
            ((MCTree.children t).foldl
              (fun m x => bump m (MCTree.action x) (MCTree.won_games x))
              (fun _ => 0))) (MCTree.action c))
          (((MCTree.children other).foldl
            (fun m x => bump m (MCTree.action x) (MCTree.total_games x))
            ((MCTree.children t).foldl
              (fun m x => bump m (MCTree.action x) (MCTree.total_games x))
              (fun _ => 0))) (MCTree.action c)))) := by
    simp only [combine_root_actions]
  rw [hcomb]
  cases t with
  | mk s a h w n cs =>
    obtain ⟨h1, h2, h3⟩ := (statsOK_mk s a h w n cs).mp ht
    simp only [MCTree.children_mk, MCTree.state_mk] at hWT ⊢
    rw [MCTree.setChildren_mk]
    refine (statsOK_mk s a h w n _).mpr ⟨h1, h2, fun x hx => ?_⟩
    rcases List.mem_map.mp hx with ⟨c, hc, rfl⟩
    rcases List.mem_append.mp hc with hc' | hc'
    · have hsc := h3 c hc'
      cases c with
      | mk s' a' h' w' n' cs' =>
        obtain ⟨_, _, hsub⟩ := (statsOK_mk s' a' h' w' n' cs').mp hsc
        rw [MCTree.setStats_mk]
        exact (statsOK_mk _ _ _ _ _ _).mpr
          ⟨(hWT _).1, (hWT _).2, hsub⟩
    · rcases List.mem_map.mp hc' with ⟨c0, _, rfl⟩
      rw [MCTree.init, MCTree.setStats_mk]
      exact (statsOK_mk _ _ _ _ _ _).mpr
        ⟨(hWT _).1, (hWT _).2, by simp⟩

/-- C8: for every node, at all times, `total_games ≥ won_games ≥ 0`: node
construction establishes `won = total = 0`, and the default backup policy
(over the whole backup walk), expansion (also inside `select`), and
`combine_root_actions` all preserve the invariant on every node of the
trees they touch. -/
theorem stats_invariant [DecidableEq A] :
    (∀ (s : S) (a : Option A) (par : Bool),
      statsOK (MCTree.init s a par) = true)
    ∧ (∀ (g : Game S A) (winner : Nat) (t : MCTree S A) (p : List Nat),
        statsOK t = true →
        statsOK (backup_result (win_loss_ratio g winner) t p) = true)
    ∧ (∀ (g : Game S A) (rng : Nat) (t : MCTree S A), statsOK t = true →
        statsOK (expand g rng t).1 = true)
    ∧ (∀ (g : Game S A) (sel_policy : MCTree S A → Nat) (rng : Nat)
        (t : MCTree S A),
        statsOK t = true → statsOK (select g sel_policy rng t).1 = true)
    ∧ (∀ (t other : MCTree S A), statsOK t = true → statsOK other = true →
        statsOK (combine_root_actions t other) = true) := by
  refine ⟨?_, ?_, ?_, ?_, ?_⟩
  · intro s a par
    exact (statsOK_mk s a par 0 0 []).mpr ⟨le_refl 0, le_refl 0, by simp⟩
  · intro g winner t p ht
    refine statsOK_backup _ ?_ ?_ p t ht
    · intro u h0 hw
      unfold win_loss_ratio
      rw [MCTree.won_games_setStats, MCTree.total_games_setStats]
      constructor
      · split
        · linarith
        · exact h0
      · split
        · linarith
        · linarith
    · intro u
      simp [win_loss_ratio]
  · exact statsOK_expand
  · exact fun g sel_policy rng t => statsOK_select g sel_policy rng t
  · exact statsOK_combine

/-- Witness for C8 at concrete trees. -/
theorem stats_invariant_witness :
    statsOK (MCTree.init (0:Nat) (none : Option Nat) false) = true
    ∧ statsOK (backup_result (win_loss_ratio testGame 1)
        (MCTree.mk (5:Nat) (none : Option Nat) false 0 0
          [MCTree.mk 4 (some 1) true 1 2 []]) [0]) = true
    ∧ statsOK (select testGame (fun _ => 0) 0
        (MCTree.init (2:Nat) (none : Option Nat) false)).1 = true
    ∧ statsOK (combine_root_actions
        (MCTree.mk (0:Nat) (none : Option Nat) false 0 0
          [MCTree.mk 0 (some 0) false 0 2 []])
        (MCTree.mk (0:Nat) (none : Option Nat) false 0 0
          [MCTree.mk 0 (some 0) false 1 1 []])) = true := by
  refine ⟨?_, ?_, ?_, ?_⟩
  · exact stats_invariant.1 0 none false
  · exact stats_invariant.2.1 testGame 1 _ [0] (by norm_num [statsOK])
  · exact stats_invariant.2.2.2.1 testGame (fun _ => 0) 0 _
      (by norm_num [statsOK, MCTree.init])
  · exact stats_invariant.2.2.2.2 _ _ (by norm_num [statsOK])
      (by norm_num [statsOK])

/-! ### The sequential search loop and its delegation-safety invariant -/

theorem statsOK_at : ∀ (q : List Nat) (t u : MCTree S A),
    statsOK t = true → follow t q = some u → statsOK u = true := by
  intro q
  induction q with
  | nil =>
    intro t u h hu
    rw [follow_nil] at hu
    cases hu
    exact h
  | cons i q' ih =>
    intro t u h hu
    cases hC : (MCTree.children t)[i]? with
    | none => rw [follow_cons_none hC] at hu; cases hu
    | some c =>
      rw [follow_cons_some hC] at hu
      have hcm : c ∈ MCTree.children t := by
        rcases List.getElem?_eq_some.mp hC with ⟨hlt, hget⟩
        exact hget ▸ List.getElem_mem _
      have hc : statsOK c = true := by
        cases t with
        | mk s a hh w n cs =>
          obtain ⟨_, _, h3⟩ := (statsOK_mk s a hh w n cs).mp h
          exact h3 c (by simpa using hcm)
      exact ih c u hc hu

theorem statsOK_stats {t : MCTree S A} (h : statsOK t = true) :
    0 ≤ MCTree.won_games t ∧ MCTree.won_games t ≤ MCTree.total_games t := by
  cases t with
  | mk s a hh w n cs =>
    obtain ⟨h1, h2, _⟩ := (statsOK_mk s a hh w n cs).mp h
    exact ⟨by simpa using h1, by simpa using h2⟩

theorem follow_append (q : List Nat) : ∀ (t u : MCTree S A) (j : Nat),
    follow t q = some u → follow t (q ++ [j]) = (MCTree.children u)[j]? := by
  induction q with
  | nil =>
    intro t u j hu
    rw [follow_nil] at hu
    cases hu
    rw [List.nil_append]
    cases hC : (MCTree.children t)[j]? with
    | none => rw [follow_cons_none hC]
    | some c => rw [follow_cons_some hC, follow_nil]
  | cons i q' ih =>
    intro t u j hu
    cases hC : (MCTree.children t)[i]? with
    | none => rw [follow_cons_none hC] at hu; cases hu
    | some c =>
      rw [follow_cons_some hC] at hu
      rw [List.cons_append, follow_cons_some hC]
      exact ih c u j hu

/-- Characterization of `expand` for the search invariant: the returned path
is valid, and every node of the new tree carries the statistics and parent
flag of the node at the same path of the old tree, except the freshly
appended child (at the returned, nonempty path) which has zero statistics
and its parent link set. -/
theorem expand_char [DecidableEq A] (g : Game S A) (rng : Nat)
    (t : MCTree S A) :
    (follow (expand g rng t).1 (expand g rng t).2).isSome = true
    ∧ (∀ q u', follow (expand g rng t).1 q = some u' →
        (∃ u, follow t q = some u
          ∧ MCTree.won_games u' = MCTree.won_games u
          ∧ MCTree.total_games u' = MCTree.total_games u
          ∧ MCTree.hasParent u' = MCTree.hasParent u)
        ∨ (q = (expand g rng t).2 ∧ q ≠ []
          ∧ MCTree.won_games u' = 0 ∧ MCTree.total_games u' = 0
          ∧ MCTree.hasParent u' = true)) := by
  by_cases hne : (Game.get_legal_actions g (MCTree.state t)).filter
      (fun a => decide (some a
        ∉ (MCTree.children t).map (fun c => MCTree.action c))) = []
  · have he : expand g rng t = (t, []) := by rw [expand, dif_pos hne]
    rw [he]
    exact ⟨by simp, fun q u' hu' => Or.inl ⟨u', hu', rfl, rfl, rfl⟩⟩
  · obtain ⟨a, _, _, he⟩ := expand_spec g rng t hne
    rw [he]
    constructor
    · rw [follow_cons, MCTree.children_setChildren,
        List.getElem?_concat_length]
      rfl
    · intro q u' hu'
      cases q with
      | nil =>
        rw [follow_nil] at hu'
        cases hu'
        exact Or.inl ⟨t, follow_nil t, by simp, by simp, by simp⟩
      | cons j q2 =>
        by_cases hj : j < (MCTree.children t).length
        · have hjq : ((MCTree.children t)
              ++ [MCTree.mk (Game.do_action g (MCTree.state t) a) (some a)
                  true 0 0 []])[j]? = (MCTree.children t)[j]? := by
            rw [List.getElem?_append_left hj]
          rw [follow_cons, MCTree.children_setChildren, hjq] at hu'
          cases hC : (MCTree.children t)[j]? with
          | none => rw [hC] at hu'; cases hu'
          | some c =>
            rw [hC] at hu'
            exact Or.inl ⟨u', by rw [follow_cons_some hC]; exact hu',
              rfl, rfl, rfl⟩
        · by_cases hj2 : j = (MCTree.children t).length
          · subst hj2
            rw [follow_cons, MCTree.children_setChildren,
              List.getElem?_concat_length] at hu'
            cases q2 with
            | nil =>
              have hu2 : some (MCTree.mk (Game.do_action g (MCTree.state t) a)
                  (some a) true 0 0 []) = some u' := hu'
              cases hu2
              exact Or.inr ⟨rfl, by simp, rfl, rfl, rfl⟩
            | cons j2 q3 =>
              have hu2 : follow (MCTree.mk (Game.do_action g (MCTree.state t)
                  a) (some a) true 0 0 []) (j2 :: q3) = some u' := hu'
              rw [follow_cons_none (by simp)] at hu2
              cases hu2
          · have hlen : ((MCTree.children t)
                ++ [MCTree.mk (Game.do_action g (MCTree.state t) a) (some a)
                    true 0 0 []]).length ≤ j := by
              rw [List.length_append, List.length_singleton]
              omega
            rw [follow_cons, MCTree.children_setChildren,
              List.getElem?_eq_none hlen] at hu'
            cases hu'

/-- Characterization of `select` for the search invariant: the returned
path is valid in the returned tree, and every node of the returned tree
carries the statistics and parent flag of the node at the same path of the
input tree, except possibly the one freshly expanded child, which sits at
the returned (nonempty) path, has zero statistics, and has its parent link
set. -/
theorem select_char [DecidableEq A] (g : Game S A)
    (sel_policy : MCTree S A → Nat) (rng : Nat) : ∀ (t : MCTree S A),
    (follow (select g sel_policy rng t).1 (select g sel_policy rng t).2).isSome
      = true
    ∧ (∀ q u', follow (select g sel_policy rng t).1 q = some u' →
        (∃ u, follow t q = some u
          ∧ MCTree.won_games u' = MCTree.won_games u
          ∧ MCTree.total_games u' = MCTree.total_games u
          ∧ MCTree.hasParent u' = MCTree.hasParent u)
        ∨ (q = (select g sel_policy rng t).2 ∧ q ≠ []
          ∧ MCTree.won_games u' = 0 ∧ MCTree.total_games u' = 0
          ∧ MCTree.hasParent u' = true)) := by
  suffices hs : ∀ (n : Nat) (t : MCTree S A), sizeOf t ≤ n →
      (follow (select g sel_policy rng t).1
        (select g sel_policy rng t).2).isSome = true
      ∧ (∀ q u', follow (select g sel_policy rng t).1 q = some u' →
          (∃ u, follow t q = some u
            ∧ MCTree.won_games u' = MCTree.won_games u
            ∧ MCTree.total_games u' = MCTree.total_games u
            ∧ MCTree.hasParent u' = MCTree.hasParent u)
          ∨ (q = (select g sel_policy rng t).2 ∧ q ≠ []
            ∧ MCTree.won_games u' = 0 ∧ MCTree.total_games u' = 0
            ∧ MCTree.hasParent u' = true)) by
    intro t
    exact hs (sizeOf t) t le_rfl
  intro n
  induction n with
  | zero =>
    intro t hsz
    exfalso
    cases t
    simp only [MCTree.mk.sizeOf_spec] at hsz
    omega
  | succ n ih =>
    intro t hsz
    by_cases hov : Game.is_over g (MCTree.state t) = true
    · rw [select_terminal g sel_policy rng t hov]
      exact ⟨by simp, fun q u' hu' => Or.inl ⟨u', hu', rfl, rfl, rfl⟩⟩
    · have hov' : Game.is_over g (MCTree.state t) = false := by simpa using hov
      by_cases hlt : (MCTree.children t).length
          < (Game.get_legal_actions g (MCTree.state t)).length
      · rw [select_expand g sel_policy rng t hov' hlt]
        exact expand_char g rng t
      · cases hC : (MCTree.children t)[sel_policy t]? with
        | none =>
          rw [select_policy_miss g sel_policy rng t hov' hlt hC]
          exact ⟨by simp, fun q u' hu' => Or.inl ⟨u', hu', rfl, rfl, rfl⟩⟩
        | some c =>
          rw [select_delegate g sel_policy rng t c hov' hlt hC]
          have hcm : c ∈ MCTree.children t := by
            rcases List.getElem?_eq_some.mp hC with ⟨hlc, hget⟩
            exact hget ▸ List.getElem_mem _
          have hszc : sizeOf c ≤ n := by
            have h2 := List.sizeOf_lt_of_mem hcm
            cases t
            simp only [MCTree.children_mk] at h2
            simp only [MCTree.mk.sizeOf_spec] at hsz
            omega
          obtain ⟨ihv, ihc⟩ := ih c hszc
          have hlc : sel_policy t < (MCTree.children t).length :=
            (List.getElem?_eq_some.mp hC).1
          have hset : ((MCTree.children t).set (sel_policy t)
              (select g sel_policy rng c).1)[sel_policy t]?
              = some (select g sel_policy rng c).1 :=
            List.getElem?_set_eq_of_lt _ hlc
          constructor
          · show (follow (MCTree.setChildren t _) (sel_policy t :: _)).isSome
              = true
            rw [follow_cons, MCTree.children_setChildren, hset]
            exact ihv
          · intro q u' hu'
            cases q with
            | nil =>
              rw [follow_nil] at hu'
              cases hu'
              refine Or.inl ⟨t, follow_nil t, by simp, by simp, by simp⟩
            | cons j q2 =>
              by_cases hij : j = sel_policy t
              · subst hij
                rw [follow_cons, MCTree.children_setChildren, hset] at hu'
                rcases ihc q2 u' hu' with ⟨u, hu, e1, e2, e3⟩ |
                    ⟨hq2, _, e1, e2, e3⟩
                · exact Or.inl ⟨u, by rw [follow_cons_some hC]; exact hu,
                    e1, e2, e3⟩
                · refine Or.inr ⟨by rw [hq2], by simp, e1, e2, e3⟩
              · have hjq : ((MCTree.children t).set (sel_policy t)
                    (select g sel_policy rng c).1)[j]?
                    = (MCTree.children t)[j]? :=
                  List.getElem?_set_ne (fun h => hij h.symm)
                rw [follow_cons, MCTree.children_setChildren, hjq] at hu'
                cases hC2 : (MCTree.children t)[j]? with
                | none => rw [hC2] at hu'; cases hu'
                | some d =>
                  rw [hC2] at hu'
                  exact Or.inl ⟨u', by rw [follow_cons_some hC2]; exact hu',
                    rfl, rfl, rfl⟩

/-- One cycle of `Mopy.search` (src/mopy/mopy.py lines 66-72): select the
node to roll out from (expanding at most one new child), simulate a game
from it, and back up the simulated winner from the selected node with the
backup policy (default `win_loss_ratio`). The playout's winner — whatever
`simulate_game` returns for this cycle — is supplied by the `result`
oracle argument. -/
def searchStep [DecidableEq A] (g : Game S A) (sel_policy : MCTree S A → Nat)
    (rng result : Nat) (t : MCTree S A) : MCTree S A :=
  backup_result (win_loss_ratio g result) (select g sel_policy rng t).1
    (select g sel_policy rng t).2

/-- `Mopy.search`'s main loop run for `k` cycles starting from the root
`MCTree(game, state)` (the wall-clock budget is modelled as a cycle count;
`rngs` and `results` supply each cycle's random expansion choice and
simulated winner). -/
def searchRun [DecidableEq A] (g : Game S A) (sel_policy : MCTree S A → Nat)
    (rngs results : Nat → Nat) (s : S) : Nat → MCTree S A
  | 0 => MCTree.init s none false
  | k+1 => searchStep g sel_policy (rngs k) (results k)
      (searchRun g sel_policy rngs results s k)

theorem win_loss_ratio_stats_sound (g : Game S A) (winner : Nat)
    (u : MCTree S A) (h0 : 0 ≤ MCTree.won_games u)
    (hw : MCTree.won_games u ≤ MCTree.total_games u) :
    0 ≤ MCTree.won_games (win_loss_ratio g winner u)
      ∧ MCTree.won_games (win_loss_ratio g winner u)
        ≤ MCTree.total_games (win_loss_ratio g winner u) := by
  unfold win_loss_ratio
  rw [MCTree.won_games_setStats, MCTree.total_games_setStats]
  constructor
  · split
    · linarith
    · exact h0
  · split
    · linarith
    · linarith

/-- The invariant maintained by the sequential search loop: the root has no
parent link, every node satisfies the statistics invariant, every non-root
node has its parent link set, every non-root node has been visited at least
once, and a root with children has been visited at least once. -/
def SearchInv (t : MCTree S A) : Prop :=
  MCTree.hasParent t = false
  ∧ statsOK t = true
  ∧ (∀ q u, follow t q = some u → q ≠ [] → MCTree.hasParent u = true)
  ∧ (∀ q u, follow t q = some u → q ≠ [] → 1 ≤ MCTree.total_games u)
  ∧ (MCTree.children t ≠ [] → 1 ≤ MCTree.total_games t)

theorem nodeDataAt_of_follow {t : MCTree S A} {q : List Nat} {u : MCTree S A}
    (hu : follow t q = some u) :
    nodeDataAt t q = some ⟨MCTree.state u, MCTree.action u,
      MCTree.hasParent u, MCTree.won_games u, MCTree.total_games u,
      (MCTree.children u).length⟩ := by
  unfold nodeDataAt
  rw [hu]
  rfl

theorem searchInv_step [DecidableEq A] (g : Game S A)
    (sel_policy : MCTree S A → Nat) (rng result : Nat) (t : MCTree S A)
    (hinv : SearchInv t) :
    SearchInv (searchStep g sel_policy rng result t) := by
  obtain ⟨hroot, hstats, hlink, htot, hchild⟩ := hinv
  obtain ⟨hvalid, hchar⟩ := select_char g sel_policy rng t
  have hroott' : MCTree.hasParent (select g sel_policy rng t).1 = false := by
    rcases hchar [] (select g sel_policy rng t).1 (follow_nil _) with
        ⟨u, hu, _, _, hflag⟩ | ⟨_, hne, _⟩
    · rw [follow_nil] at hu
      cases hu
      exact hflag.trans hroot
    · exact absurd rfl hne
  have hstats' : statsOK (select g sel_policy rng t).1 = true :=
    statsOK_select g sel_policy rng t hstats
  have hlink' : ∀ q u', follow (select g sel_policy rng t).1 q = some u' →
      q ≠ [] → MCTree.hasParent u' = true := by
    intro q u' hu' hq
    rcases hchar q u' hu' with ⟨u, hu, _, _, hflag⟩ | ⟨_, _, _, _, hflag⟩
    · rw [hflag]
      exact hlink q u hu hq
    · exact hflag
  have htot' : ∀ q u', follow (select g sel_policy rng t).1 q = some u' →
      q ≠ (select g sel_policy rng t).2 → q ≠ [] →
      1 ≤ MCTree.total_games u' := by
    intro q u' hu' hqp hq
    rcases hchar q u' hu' with ⟨u, hu, _, he, _⟩ | ⟨hq2, _, _⟩
    · rw [he]
      exact htot q u hu hq
    · exact absurd hq2 hqp
  have hbk := backup_nodeDataAt (win_loss_ratio g result)
    (fun s w n => if Game.current_player g s = result then w + 1 else w)
    (fun s w n => n + 1) (fun u => rfl) (select g sel_policy rng t).2
    (select g sel_policy rng t).1 hroott' hlink' hvalid
  show SearchInv (backup_result (win_loss_ratio g result)
    (select g sel_policy rng t).1 (select g sel_policy rng t).2)
  have hfin : ∀ q u', follow (backup_result (win_loss_ratio g result)
      (select g sel_policy rng t).1 (select g sel_policy rng t).2) q
        = some u' →
      ∃ v, follow (select g sel_policy rng t).1 q = some v
        ∧ MCTree.hasParent u' = MCTree.hasParent v
        ∧ ((((select g sel_policy rng t).2).take q.length = q
            ∧ MCTree.total_games u' = MCTree.total_games v + 1)
          ∨ (¬ (((select g sel_policy rng t).2).take q.length = q)
            ∧ MCTree.total_games u' = MCTree.total_games v)) := by
    intro q u' hu'
    have hq := hbk q
    rw [nodeDataAt_of_follow hu'] at hq
    by_cases hpref : ((select g sel_policy rng t).2).take q.length = q
    · rw [if_pos hpref] at hq
      cases hfv : follow (select g sel_policy rng t).1 q with
      | none =>
        have hnone : nodeDataAt (select g sel_policy rng t).1 q = none := by
          unfold nodeDataAt
          rw [hfv]
          rfl
        rw [hnone] at hq
        simp at hq
      | some v =>
        rw [nodeDataAt_of_follow hfv] at hq
        simp only [Option.map_some', Option.some.injEq] at hq
        refine ⟨v, rfl, ?_, Or.inl ⟨hpref, ?_⟩⟩
        · exact congrArg NodeData.hasParent hq
        · exact congrArg NodeData.total_games hq
    · rw [if_neg hpref] at hq
      cases hfv : follow (select g sel_policy rng t).1 q with
      | none =>
        have hnone : nodeDataAt (select g sel_policy rng t).1 q = none := by
          unfold nodeDataAt
          rw [hfv]
          rfl
        rw [hnone] at hq
        simp at hq
      | some v =>
        rw [nodeDataAt_of_follow hfv] at hq
        simp only [Option.some.injEq] at hq
        refine ⟨v, rfl, ?_, Or.inr ⟨hpref, ?_⟩⟩
        · exact congrArg NodeData.hasParent hq
        · exact congrArg NodeData.total_games hq
  refine ⟨?_, ?_, ?_, ?_, ?_⟩
  · obtain ⟨v, hv, hflag, _⟩ := hfin [] _ (follow_nil _)
    rw [follow_nil] at hv
    cases hv
    exact hflag.trans hroott'
  · exact statsOK_backup _ (win_loss_ratio_stats_sound g result)
      (fun u => by simp [win_loss_ratio]) _ _ hstats'
  · intro q u hu hq
    obtain ⟨v, hv, hflag, _⟩ := hfin q u hu
    rw [hflag]
    exact hlink' q v hv hq
  · intro q u hu hq
    obtain ⟨v, hv, _, hcase⟩ := hfin q u hu
    have hv0 : 0 ≤ MCTree.total_games v := by
      have := statsOK_stats (statsOK_at q _ v hstats' hv)
      linarith [this.1, this.2]
    rcases hcase with ⟨_, he⟩ | ⟨hnp, he⟩
    · rw [he]
      linarith
    · rw [he]
      refine htot' q v hv ?_ hq
      intro hqp
      apply hnp
      rw [hqp, List.take_length]
  · intro _
    obtain ⟨v, hv, _, hcase⟩ := hfin [] _ (follow_nil _)
    rw [follow_nil] at hv
    cases hv
    have hv0 : 0 ≤ MCTree.total_games (select g sel_policy rng t).1 := by
      have := statsOK_stats hstats'
      linarith [this.1, this.2]
    rcases hcase with ⟨_, he⟩ | ⟨hnp, _⟩
    · rw [he]
      linarith
    · exact absurd (by simp) hnp

theorem searchInv_run [DecidableEq A] (g : Game S A)
    (sel_policy : MCTree S A → Nat) (rngs results : Nat → Nat) (s : S) :
    ∀ k, SearchInv (searchRun g sel_policy rngs results s k) := by
  intro k
  induction k with
  | zero =>
    show SearchInv (MCTree.init s none false)
    refine ⟨rfl, by simp [statsOK, MCTree.init], ?_, ?_, ?_⟩
    · intro q u hu hq
      cases q with
      | nil => exact absurd rfl hq
      | cons i q' =>
        rw [follow_cons_none (by simp [MCTree.init])] at hu
        cases hu
    · intro q u hu hq
      cases q with
      | nil => exact absurd rfl hq
      | cons i q' =>
        rw [follow_cons_none (by simp [MCTree.init])] at hu
        cases hu
    · intro hc
      exact absurd (rfl : MCTree.children (MCTree.init s (none : Option A)
        false) = []) hc
  | succ k ihk =>
    exact searchInv_step g sel_policy (rngs k) (results k) _ ihk

/-- C7: in every sequential search over a game satisfying the contract
(non-terminal states have at least one legal action), at every node where
the select loop would delegate to the selection policy — a non-terminal
node with at least as many explored children as legal actions — the node
has at least one explored child, every explored child has
`total_games ≥ 1`, and the node itself has `total_games ≥ 1`; hence UCT's
`log(0)` (zero parent visits) and division-by-zero (zero child visits)
branches are unreachable. -/
theorem search_delegation_safe [DecidableEq A] (g : Game S A)
    (hcontract : ∀ s : S, Game.is_over g s = false →
      Game.get_legal_actions g s ≠ [])
    (sel_policy : MCTree S A → Nat) (rngs results : Nat → Nat) (s : S)
    (k : Nat) (q : List Nat) (u : MCTree S A)
    (hu : follow (searchRun g sel_policy rngs results s k) q = some u)
    (hterm : Game.is_over g (MCTree.state u) = false)
    (hdel : (Game.get_legal_actions g (MCTree.state u)).length
      ≤ (MCTree.children u).length) :
    MCTree.children u ≠ []
    ∧ (∀ c ∈ MCTree.children u, 1 ≤ MCTree.total_games c)
    ∧ 1 ≤ MCTree.total_games u := by
  obtain ⟨hroot, hstats, hlink, htot, hchild⟩ :=
    searchInv_run g sel_policy rngs results s k
  have hchne : MCTree.children u ≠ [] := by
    intro hc
    have hle := hcontract _ hterm
    rw [hc] at hdel
    have h0 : (Game.get_legal_actions g (MCTree.state u)).length = 0 := by
      simpa using hdel
    exact hle (List.length_eq_zero.mp h0)
  refine ⟨hchne, ?_, ?_⟩
  · intro c hcm
    rcases List.mem_iff_getElem?.mp hcm with ⟨j, hj⟩
    have hf := follow_append q _ u j hu
    rw [hj] at hf
    exact htot (q ++ [j]) c hf (by simp)
  · by_cases hq : q = []
    · subst hq
      rw [follow_nil] at hu
      cases hu
      exact hchild hchne
    · exact htot q u hu hq

/-- One full search cycle on the concrete test game, evaluated: from pile 1
the only action is expanded, the playout result 0 is backed up, and both
nodes end with one visit. -/
theorem compute_one_cycle :
    searchRun testGame (fun _ => 0) (fun _ => 0) (fun _ => 0) 1 1
      = MCTree.mk 1 none false 0 1 [MCTree.mk 0 (some 1) true 1 1 []] := by
  show searchStep testGame (fun _ => 0) 0 0 (MCTree.init 1 none false) = _
  rw [searchStep]
  have hsel : select testGame (fun _ => 0) 0 (MCTree.init 1 none false)
      = (MCTree.mk 1 none false 0 0 [MCTree.mk 0 (some 1) true 0 0 []],
        [0]) := by
    rw [select_expand testGame (fun _ => 0) 0 (MCTree.init 1 none false) rfl
      (by decide)]
    rw [expand, dif_neg (by decide)]
    simp [MCTree.init, testGame]
  rw [hsel]
  rw [backup_result_some _ (show follow (MCTree.mk 1 none false 0 0
    [MCTree.mk (0:Nat) (some 1) true 0 0 []]) [0]
    = some (MCTree.mk 0 (some 1) true 0 0 []) from rfl)]
  rw [if_pos (show ([0] : List Nat) ≠ []
    ∧ MCTree.hasParent (MCTree.mk (0:Nat) (some 1) true 0 0 []) = true from
    ⟨by simp, rfl⟩)]
  rw [show List.dropLast [0] = ([] : List Nat) from rfl]
  have hupd : updateAt (win_loss_ratio testGame 0)
      (MCTree.mk 1 none false 0 0 [MCTree.mk (0:Nat) (some 1) true 0 0 []])
      [0]
      = MCTree.mk 1 none false 0 0
        [MCTree.mk (0:Nat) (some 1) true 1 1 []] := by
    rw [updateAt_cons_some _ (show (MCTree.children (MCTree.mk 1 none false
      0 0 [MCTree.mk (0:Nat) (some 1) true 0 0 []]))[0]?
      = some (MCTree.mk 0 (some 1) true 0 0 []) from rfl), updateAt_nil]
    norm_num [win_loss_ratio, testGame]
  rw [hupd]
  rw [backup_result_some _ (follow_nil _)]
  rw [if_neg (by simp)]
  rw [updateAt_nil]
  norm_num [win_loss_ratio, testGame]

/-- Witness for C7: after one cycle on the test game, the root is a
delegation point (1 legal action, 1 explored child) and both it and its
child have been visited at least once. -/
theorem search_delegation_safe_witness :
    MCTree.children (searchRun testGame (fun _ => 0) (fun _ => 0)
        (fun _ => 0) 1 1) ≠ []
    ∧ (∀ c ∈ MCTree.children (searchRun testGame (fun _ => 0) (fun _ => 0)
        (fun _ => 0) 1 1), 1 ≤ MCTree.total_games c)
    ∧ 1 ≤ MCTree.total_games (searchRun testGame (fun _ => 0) (fun _ => 0)
        (fun _ => 0) 1 1) := by
  refine search_delegation_safe testGame ?_ (fun _ => 0) (fun _ => 0)
    (fun _ => 0) 1 1 [] _ (follow_nil _) ?_ ?_
  · intro s hs hnil
    have hs0 : s ≠ 0 := by
      intro h
      rw [h] at hs
      simp [testGame] at hs
    apply hs0
    have h1 : (List.range (min s 3)).map (fun k => k + 1) = [] := hnil
    have h2 : List.range (min s 3) = [] := List.map_eq_nil_iff.mp h1
    have h3 : min s 3 = 0 := List.range_eq_nil.mp h2
    omega
  · rw [compute_one_cycle]
    rfl
  · rw [compute_one_cycle]
    decide

/-! ### The UCT selection policy

Python float arithmetic (`math.log`, `math.sqrt`, float `+`, `*`, `/`) is
modelled over the real numbers. -/

/-- `_get_UCT_val` (src/mopy/policies/selection.py lines 16-21):
`node.win_ratio + 2*C*sqrt((2*log(par_visits)) / node_visits)`, where
`par_visits = node.parent.total_games`. The parent lookup through the
node's `parent` attribute is embedded by passing the parent's visit count
(`_expand` creates every child with `parent=self`, so for a child of `t`
this is `t.total_games`). -/
noncomputable def get_UCT_val (par_visits : Rat) (node : MCTree S A)
    (explore_rate : ℝ) : ℝ :=
  (MCTree.win_ratio node : ℝ)
    + 2 * explore_rate * Real.sqrt ((2 * Real.log ((par_visits : ℝ)))
        / ((MCTree.total_games node : ℝ)))

/-- Python's `max` on a list of floats (first-encountered maximum; on the
empty list the source raises `ValueError`, unreachable for UCT callers). -/
noncomputable def pymaxR : List ℝ → ℝ
  | [] => 0
  | x :: xs => xs.foldl max x

open Classical in
/-- Python's `list.index(v)`: index of the first occurrence of `v`. -/
noncomputable def indexOfR (v : ℝ) : List ℝ → Nat
  | [] => 0
  | x :: xs => if x = v then 0 else indexOfR v xs + 1

/-- `UCT` (src/mopy/policies/selection.py lines 24-46):
`scores.index(max(scores))` over the children's UCT values; returns the
selected child's index. -/
noncomputable def UCT (t : MCTree S A) (explore_rate : ℝ) : Nat :=
  indexOfR (pymaxR ((MCTree.children t).map
      (fun c => get_UCT_val (MCTree.total_games t) c explore_rate)))
    ((MCTree.children t).map
      (fun c => get_UCT_val (MCTree.total_games t) c explore_rate))

theorem foldl_max_mem : ∀ (xs : List ℝ) (x : ℝ), xs.foldl max x ∈ x :: xs := by
  intro xs
  induction xs with
  | nil => intro x; simp
  | cons y ys ih =>
    intro x
    rw [List.foldl_cons]
    rcases List.mem_cons.mp (ih (max x y)) with h | h
    · rcases max_choice x y with hm | hm
      · rw [h, hm]; simp
      · rw [h, hm]; simp
    · simp [h]

theorem le_foldl_max : ∀ (xs : List ℝ) (x z : ℝ), z ∈ x :: xs →
    z ≤ xs.foldl max x := by
  intro xs
  induction xs with
  | nil =>
    intro x z hz
    simp at hz
    simp [hz]
  | cons y ys ih =>
    intro x z hz
    rw [List.foldl_cons]
    have hacc : max x y ≤ ys.foldl max (max x y) :=
      ih (max x y) (max x y) (List.mem_cons_self _ _)
    rcases List.mem_cons.mp hz with rfl | hz2
    · exact le_trans (le_max_left _ y) hacc
    · rcases List.mem_cons.mp hz2 with rfl | hz3
      · exact le_trans (le_max_right x _) hacc
      · exact ih (max x y) z (List.mem_cons_of_mem _ hz3)

theorem indexOfR_spec (v : ℝ) : ∀ (l : List ℝ), v ∈ l →
    indexOfR v l < l.length ∧ l[indexOfR v l]? = some v
      ∧ ∀ j < indexOfR v l, ∀ s', l[j]? = some s' → s' ≠ v := by
  intro l
  induction l with
  | nil => intro h; simp at h
  | cons x xs ih =>
    intro hv
    rw [indexOfR]
    by_cases hx : x = v
    · rw [if_pos hx]
      exact ⟨by simp, by simp [hx], fun j hj => absurd hj (by simp)⟩
    · rw [if_neg hx]
      have hv' : v ∈ xs := by
        rcases List.mem_cons.mp hv with rfl | h
        · exact absurd rfl hx
        · exact h
      obtain ⟨h1, h2, h3⟩ := ih hv'
      refine ⟨by simpa using h1, by simpa using h2, ?_⟩
      intro j hj s' hs'
      cases j with
      | zero =>
        rw [List.getElem?_cons_zero] at hs'
        cases hs'
        exact hx
      | succ j' =>
        rw [List.getElem?_cons_succ] at hs'
        exact h3 j' (by omega) s' hs'

/-- C6: for every node with at least one child, each child's visit count at
least 1, the node's own (= the children's parent's) visit count at least 1
and every child's parent reference set, UCT assigns each child `c` the
score `win_ratio c + 2·exploreRate·√(2·ln(parentVisits)/childVisits)` and
returns the index of a child of maximal score, ties resolving to the
first-encountered maximal child. -/
theorem UCT_first_argmax (t : MCTree S A) (explore_rate : ℝ)
    (hne : MCTree.children t ≠ [])
    (hchild : ∀ c ∈ MCTree.children t, 1 ≤ MCTree.total_games c)
    (hpar : 1 ≤ MCTree.total_games t)
    (hlinked : ∀ c ∈ MCTree.children t, MCTree.hasParent c = true) :
    (∀ c ∈ MCTree.children t,
      get_UCT_val (MCTree.total_games t) c explore_rate
        = (MCTree.win_ratio c : ℝ) + 2 * explore_rate
            * Real.sqrt ((2 * Real.log ((MCTree.total_games t : ℝ)))
              / ((MCTree.total_games c : ℝ))))
    ∧ UCT t explore_rate < (MCTree.children t).length
    ∧ ∃ sBest, ((MCTree.children t).map
        (fun c => get_UCT_val (MCTree.total_games t) c
          explore_rate))[UCT t explore_rate]? = some sBest
      ∧ (∀ s' ∈ (MCTree.children t).map
          (fun c => get_UCT_val (MCTree.total_games t) c explore_rate),
          s' ≤ sBest)
      ∧ (∀ j < UCT t explore_rate, ∀ s',
          ((MCTree.children t).map
            (fun c => get_UCT_val (MCTree.total_games t) c
              explore_rate))[j]? = some s' → s' < sBest) := by
  refine ⟨fun c _ => rfl, ?_⟩
  cases hcs : MCTree.children t with
  | nil => exact absurd hcs hne
  | cons c0 cs =>
    have hvm : pymaxR ((c0 :: cs).map
        (fun c => get_UCT_val (MCTree.total_games t) c explore_rate))
        ∈ (c0 :: cs).map
          (fun c => get_UCT_val (MCTree.total_games t) c explore_rate) := by
      rw [List.map_cons, pymaxR]
      exact foldl_max_mem _ _
    have hle : ∀ s' ∈ (c0 :: cs).map
        (fun c => get_UCT_val (MCTree.total_games t) c explore_rate),
        s' ≤ pymaxR ((c0 :: cs).map
          (fun c => get_UCT_val (MCTree.total_games t) c explore_rate)) := by
      intro s' hs'
      rw [List.map_cons, pymaxR]
      rw [List.map_cons] at hs'
      exact le_foldl_max _ _ _ hs'
    obtain ⟨h1, h2, h3⟩ := indexOfR_spec _ _ hvm
    have hU : UCT t explore_rate = indexOfR (pymaxR ((c0 :: cs).map
        (fun c => get_UCT_val (MCTree.total_games t) c explore_rate)))
        ((c0 :: cs).map
          (fun c => get_UCT_val (MCTree.total_games t) c explore_rate)) := by
      rw [UCT, hcs]
    rw [hU]
    refine ⟨by simpa using h1, pymaxR _, h2, hle, ?_⟩
    intro j hj s' hs'
    have hmem : s' ∈ (c0 :: cs).map
        (fun c => get_UCT_val (MCTree.total_games t) c explore_rate) :=
      List.getElem?_mem hs'
    exact lt_of_le_of_ne (hle s' hmem) (h3 j hj s' hs')

/-- Witness for C6 at a concrete two-child node with `exploreRate = 0`. -/
theorem UCT_first_argmax_witness :
    (∀ c ∈ MCTree.children (MCTree.mk (0:Nat) (none : Option Nat) false 1 1
        [MCTree.mk 0 (some 1) true 1 1 [], MCTree.mk 0 (some 2) true 0 1 []]),
      get_UCT_val 1 c 0
        = (MCTree.win_ratio c : ℝ) + 2 * 0
            * Real.sqrt ((2 * Real.log ((1:Rat) : ℝ))
              / ((MCTree.total_games c : ℝ))))
    ∧ UCT (MCTree.mk (0:Nat) (none : Option Nat) false 1 1
        [MCTree.mk 0 (some 1) true 1 1 [], MCTree.mk 0 (some 2) true 0 1 []])
        0
      < (MCTree.children (MCTree.mk (0:Nat) (none : Option Nat) false 1 1
        [MCTree.mk 0 (some 1) true 1 1 [],
          MCTree.mk 0 (some 2) true 0 1 []])).length := by
  have h := UCT_first_argmax (MCTree.mk (0:Nat) (none : Option Nat) false 1 1
      [MCTree.mk 0 (some 1) true 1 1 [], MCTree.mk 0 (some 2) true 0 1 []]) 0
    (by simp)
    (by
      intro c hc
      simp only [MCTree.children_mk] at hc
      rcases List.mem_cons.mp hc with rfl | hc2
      · norm_num
      · rcases List.mem_cons.mp hc2 with rfl | hc3
        · norm_num
        · simp at hc3)
    (by norm_num)
    (by
      intro c hc
      simp only [MCTree.children_mk] at hc
      rcases List.mem_cons.mp hc with rfl | hc2
      · rfl
      · rcases List.mem_cons.mp hc2 with rfl | hc3
        · rfl
        · simp at hc3)
  exact ⟨h.1, h.2.1⟩

end Mopy
